import Mathlib

/-!
Verification of the sandboxed tree subsystem of `nnav` (a terminal notes
navigator written in Go) against its natural-language specification.

The development shallowly embeds the relevant Go code:

* `cmd/nnav/safeio.go` — the Path Guard (`safeJoinWithin`,
  `safePathWithinNotes`, `isReadableFile`, `isListableDir`);
* `cmd/nnav/tree.go` — the search-aware Scanner / Tree Builder
  (`scanTitle`, `readDirNodes`, `buildTree` taking a search term);
* the search-free variant of the same functions (one-argument
  `scanTitle`/`readDirNodes`/`buildTree`) used by the TUI for lazy
  expansion and reload;
* `cmd/nnav/tui.go` — the projection/navigator (`flatten`, `recompute`,
  `adjustScroll`, cursor movement, the render window and
  `expandIfNeeded`).

Machine integers do not overflow in any modelled code path, so `Int`/`Nat`
are used directly.  Strings are modelled as Lean `String`s but every
operation is implemented over the underlying character list so that all
definitions compute by kernel reduction; byte-wise Go string comparison
coincides with code-point-wise comparison on valid UTF-8, which is what the
character-list model implements.
-/

namespace NNav

/-! ## Character and string primitives (models of Go `strings` functions) -/

/-- Model of Go's byte-wise lexicographic `<` on strings, as a structural
comparison of character lists (equivalent on valid UTF-8). -/
def clLt : List Char → List Char → Bool
  | [], [] => false
  | [], _ :: _ => true
  | _ :: _, [] => false
  | a :: as, b :: bs => if a < b then true else if b < a then false else clLt as bs

/-- Model of `unicode.ToLower` restricted to the ASCII range (sufficient for
the case-insensitive comparisons in the scanner; a uniform model used on both
the code side and the spec side). -/
def lowerChar (c : Char) : Char :=
  if 'A' ≤ c ∧ c ≤ 'Z' then Char.ofNat (c.toNat + 32) else c

/-- Lower-cased character data of a string (model of `strings.ToLower`
composed with `String.data`). -/
def lowerData (s : String) : List Char := s.data.map lowerChar

/-- Model of `strings.ToLower`. -/
def lowerStr (s : String) : String := ⟨lowerData s⟩

/-- Model of `strings.HasPrefix`. -/
def hasPrefixStr (s pre : String) : Bool := pre.data.isPrefixOf s.data

/-- Substring check on character lists: `sub` occurs contiguously in `s`. -/
def containsCL (s sub : List Char) : Bool :=
  match s with
  | [] => sub.isEmpty
  | _ :: rest => sub.isPrefixOf s || containsCL rest sub

/-- Model of `strings.Contains`. -/
def containsStr (s sub : String) : Bool := containsCL s.data sub.data

theorem clLt_irrefl (a : List Char) : clLt a a = false := by
  induction a with
  | nil => rfl
  | cons c cs ih => simp [clLt, ih]

theorem clLt_asymm {a b : List Char} (h : clLt a b = true) : clLt b a = false := by
  induction a generalizing b with
  | nil => cases b <;> simp [clLt]
  | cons c cs ih =>
    cases b with
    | nil => simp [clLt] at h
    | cons d ds =>
      simp only [clLt] at h ⊢
      rcases lt_trichotomy c d with hcd | hcd | hcd
      · simp [hcd, not_lt_of_gt hcd]
      · subst hcd
        simp only [lt_irrefl, if_false] at h ⊢
        exact ih h
      · simp [hcd, not_lt_of_gt hcd] at h

theorem clLt_trans {a b c : List Char} (h₁ : clLt a b = true) (h₂ : clLt b c = true) :
    clLt a c = true := by
  induction a generalizing b c with
  | nil =>
    cases b with
    | nil => simp [clLt] at h₁
    | cons d ds => cases c with
      | nil => simp [clLt] at h₂
      | cons e es => simp [clLt]
  | cons x xs ih =>
    cases b with
    | nil => simp [clLt] at h₁
    | cons d ds =>
      cases c with
      | nil => simp [clLt] at h₂
      | cons e es =>
        simp only [clLt] at h₁ h₂ ⊢
        rcases lt_trichotomy x d with hxd | hxd | hxd
        · rcases lt_trichotomy d e with hde | hde | hde
          · simp [hxd.trans hde]
          · subst hde; simp [hxd]
          · simp [hde, not_lt_of_gt hde] at h₂
        · subst hxd
          rcases lt_trichotomy x e with hxe | hxe | hxe
          · simp [hxe]
          · subst hxe
            simp only [lt_irrefl, if_false] at h₁ h₂ ⊢
            exact ih h₁ h₂
          · simp [hxe, not_lt_of_gt hxe] at h₂
        · simp [hxd, not_lt_of_gt hxd] at h₁

theorem clLt_total {a b : List Char} (h₁ : clLt a b = false) (h₂ : clLt b a = false) :
    a = b := by
  induction a generalizing b with
  | nil => cases b with
    | nil => rfl
    | cons d ds => simp [clLt] at h₁
  | cons c cs ih =>
    cases b with
    | nil => simp [clLt] at h₂
    | cons d ds =>
      simp only [clLt] at h₁ h₂
      rcases lt_trichotomy c d with hcd | hcd | hcd
      · simp [hcd] at h₁
      · subst hcd
        simp only [lt_irrefl, if_false] at h₁ h₂
        rw [ih h₁ h₂]
      · simp [hcd] at h₂

/-- Negative transitivity of `clLt`: the complement of the strict order is
transitive, which is what insertion-sort sortedness needs. -/
theorem clLt_negtrans {a b c : List Char} (h₁ : clLt b a = false) (h₂ : clLt c b = false) :
    clLt c a = false := by
  by_cases hca : clLt c a = true
  · by_cases hbc : clLt b c = true
    · have := clLt_trans hbc hca
      rw [this] at h₁; cases h₁
    · have hbc' : clLt b c = false := by
        cases h : clLt b c
        · rfl
        · exact absurd h hbc
      have := clLt_total hbc' h₂
      subst this
      rw [hca] at h₁; cases h₁
  · cases h : clLt c a
    · rfl
    · exact absurd h hca

/-! ## Path model (Go `path/filepath` on Unix) -/

/-- Split a path string on `/`, keeping the raw (possibly empty) segments. -/
def splitSlash (s : String) : List String :=
  (s.data.splitOn '/').map (fun cs => ⟨cs⟩)

/-- Model of `filepath.IsAbs` on Unix: the path starts with a separator. -/
def goIsAbs (s : String) : Bool := hasPrefixStr s "/"

/-- One step of the `filepath.Clean` element loop: push a normal element,
drop `""`/`.`, and resolve `..` against the stack (`acc` holds the output
elements in reverse). -/
def cleanStep (rooted : Bool) (acc : List String) (elem : String) : List String :=
  if elem = "" ∨ elem = "." then acc
  else if elem = ".." then
    match acc with
    | [] => if rooted then [] else [".."]
    | top :: rest => if top = ".." then ".." :: acc else rest
  else elem :: acc

/-- Cleaned element list of a path (in order). -/
def cleanList (rooted : Bool) (parts : List String) : List String :=
  (parts.foldl (cleanStep rooted) []).reverse

/-- Join a list of path elements with `/`. -/
def interSlash : List String → String
  | [] => ""
  | [e] => e
  | e :: rest => e ++ "/" ++ interSlash rest

/-- Model of `filepath.Clean` (Unix rules): collapse `.`, `..` and repeated
separators; `""` cleans to `"."`. -/
def goClean (s : String) : String :=
  if s = "" then "."
  else
    let rooted := goIsAbs s
    let parts := cleanList rooted (splitSlash s)
    if rooted then "/" ++ interSlash parts
    else if parts = [] then "." else interSlash parts

/-- Model of two-argument `filepath.Join`: drop empty arguments, join the
rest with a separator, and clean the result. -/
def goJoin (a b : String) : String :=
  if a = "" ∧ b = "" then ""
  else if a = "" then goClean b
  else if b = "" then goClean a
  else goClean (a ++ "/" ++ b)

/-- Split a cleaned path into its non-empty elements. -/
def pathParts (s : String) : List String :=
  (splitSlash s).filter (fun e => e ≠ "")

/-- Drop the common prefix of two element lists (the element-comparison loop
of `filepath.Rel`). -/
def dropCommon : List String → List String → List String × List String
  | b :: bs, t :: ts => if b = t then dropCommon bs ts else (b :: bs, t :: ts)
  | bs, ts => (bs, ts)

/-- Model of `filepath.Rel` on Unix (`none` models the error return): clean
both paths, require both or neither to be rooted, strip the common element
prefix, refuse when the base has a leading `..` element left, and otherwise
emit one `..` per remaining base element followed by the remaining target
elements. -/
def goRel (basepath targpath : String) : Option String :=
  let base := goClean basepath
  let targ := goClean targpath
  if targ = base then some "."
  else
    let base' := if base = "." then "" else base
    if goIsAbs base' ≠ goIsAbs targ then none
    else
      match dropCommon (pathParts base') (pathParts targ) with
      | (b0 :: brest, tres) =>
        if b0 = ".." then none
        else some (interSlash (((b0 :: brest).map fun _ => "..") ++ tres))
      | ([], tres) => some (interSlash tres)

/-- Model of `filepath.Ext`: the suffix of the final element starting at its
last dot (empty when the final element has no dot). -/
def extFrom : List Char → List Char → String
  | [], _ => ""
  | c :: rest, acc =>
    if c = '/' then ""
    else if c = '.' then ⟨'.' :: acc⟩
    else extFrom rest (c :: acc)

/-- Model of `filepath.Ext` on a file name. -/
def goExt (s : String) : String := extFrom s.data.reverse []

/-- Model of `filepath.Base` (Unix rules). -/
def goBase (s : String) : String :=
  if s = "" then "."
  else
    let cs := s.data.reverse.dropWhile (fun c => c = '/')
    if cs = [] then "/" else ⟨(cs.takeWhile (fun c => c ≠ '/')).reverse⟩

/-! ## The Path Guard: `safeJoinWithin` (safeio.go)

Filesystem symlink resolution (`filepath.EvalSymlinks`) is modelled by an
oracle `resolve : String → Option String`; `none` models an error return
(for instance a target that does not exist yet). -/

/-- Model of `safeJoinWithin` from `safeio.go`: reject absolute candidates,
reject when the relative path from the base escapes, resolve symlinks on
both sides (falling back to the unresolved joined path when the joined path
does not resolve), and require the resolved joined path to equal the
resolved base or to lie under it with a separator appended to both sides of
the prefix check. -/
def safeJoinWithin (resolve : String → Option String) (base userPath : String) :
    Except String String :=
  if goIsAbs (goClean userPath) then .error "absolute paths not allowed"
  else
    match goRel base (goJoin base (goClean userPath)) with
    | none => .error "path escapes base dir"
    | some rel =>
      if hasPrefixStr rel ".." || (rel == "." && goClean userPath == "..") then
        .error "path escapes base dir"
      else
        match resolve base with
        | none => .error "eval symlinks failed on base"
        | some absBase =>
          if !hasPrefixStr ((resolve (goJoin base (goClean userPath))).getD
                (goJoin base (goClean userPath)) ++ "/") (absBase ++ "/") &&
              !((resolve (goJoin base (goClean userPath))).getD
                (goJoin base (goClean userPath)) == absBase) then
            .error "symlink escape detected"
          else .ok ((resolve (goJoin base (goClean userPath))).getD
                (goJoin base (goClean userPath)))

/-- Acceptance condition of the Path Guard exactly as the specification
words it: the normalized candidate is not absolute, the relative path from
the base to the joined result exists and does not begin with a
parent-directory marker, and the symlink-resolved joined path (falling back
to the unresolved joined path when resolution fails) equals the
symlink-resolved base or lies strictly inside it under the
separator-appending prefix comparison. -/
def specGuardAccepts (resolve : String → Option String) (base userPath : String) : Bool :=
  !goIsAbs (goClean userPath) &&
  (match goRel base (goJoin base (goClean userPath)) with
   | none => false
   | some rel => !hasPrefixStr rel "..") &&
  (match resolve base with
   | none => false
   | some absBase =>
     hasPrefixStr ((resolve (goJoin base (goClean userPath))).getD
         (goJoin base (goClean userPath)) ++ "/") (absBase ++ "/") ||
       (resolve (goJoin base (goClean userPath))).getD
         (goJoin base (goClean userPath)) == absBase)

/-! ## Claim C2 -/

/-- C2: the Path Guard's acceptance condition as the claim words it is
violated by the code at base `"/"` with candidate `".."`: all three
spec conditions hold (the candidate is relative, the relative path `"."`
does not begin with a parent marker, and the resolved joined path equals the
resolved base), yet `safeJoinWithin` rejects via its extra
`rel == "." && clean == ".."` clause. -/
theorem C2_counterexample :
    specGuardAccepts (fun s => some s) "/" ".." = true ∧
    safeJoinWithin (fun s => some s) "/" ".." = .error "path escapes base dir" :=
  ⟨rfl, rfl⟩

/-- C2 (amended): `safeJoinWithin` succeeds exactly when the specification's
three conditions hold and additionally it is not the case that the relative
path from base to the joined result is `"."` while the cleaned candidate is
`".."` (the base-is-filesystem-root edge case the code also rejects); on
success the returned path is the symlink-resolved joined path, falling back
to the unresolved joined path when resolution fails. -/
theorem C2_spec (resolve : String → Option String) (base userPath : String) :
    ((safeJoinWithin resolve base userPath).isOk =
      (specGuardAccepts resolve base userPath &&
        !(goRel base (goJoin base (goClean userPath)) == some "." &&
          goClean userPath == ".."))) ∧
    (∀ out, safeJoinWithin resolve base userPath = .ok out →
      out = (resolve (goJoin base (goClean userPath))).getD
              (goJoin base (goClean userPath))) := by
  unfold safeJoinWithin specGuardAccepts
  cases habs : goIsAbs (goClean userPath) with
  | true =>
    constructor
    · simp [Except.isOk, Except.toBool]
    · intro out h; simp at h
  | false =>
    cases hrel : goRel base (goJoin base (goClean userPath)) with
    | none =>
      constructor
      · simp [Except.isOk, Except.toBool]
      · intro out h; simp at h
    | some rel =>
      cases hpre : hasPrefixStr rel ".." with
      | true =>
        constructor
        · simp [Except.isOk, Except.toBool, hpre]
        · intro out h; simp [hpre] at h
      | false =>
        cases hd1 : (rel == (".")) with
        | true =>
          have hd1p : rel = "." := eq_of_beq hd1
          have hsp : ((some rel == some (".")) = true) := hd1
          cases hd2 : (goClean userPath == ("..")) with
          | true =>
            have hd2p : goClean userPath = ".." := eq_of_beq hd2
            constructor
            · simp [Except.isOk, Except.toBool, hpre, hd1p, hd2p]
            · intro out h; simp [hpre, hd1p, hd2p] at h
          | false =>
            have hd2p : goClean userPath ≠ ".." := by
              intro he; rw [he] at hd2; simp at hd2
            cases hbase : resolve base with
            | none =>
              constructor
              · simp [Except.isOk, Except.toBool, hpre, hd2p]
              · intro out h; simp [hpre, hd2p] at h
            | some absBase =>
              cases hP : hasPrefixStr ((resolve (goJoin base (goClean userPath))).getD
                  (goJoin base (goClean userPath)) ++ "/") (absBase ++ "/") with
              | true =>
                constructor
                · simp [Except.isOk, Except.toBool, hpre, hd2p, hP]
                · intro out h
                  simp [hpre, hd2p, hP] at h
                  exact h.symm
              | false =>
                cases hE : ((resolve (goJoin base (goClean userPath))).getD
                    (goJoin base (goClean userPath)) == absBase) with
                | true =>
                  have hEp : (resolve (goJoin base (goClean userPath))).getD
                      (goJoin base (goClean userPath)) = absBase := eq_of_beq hE
                  constructor
                  · simp [Except.isOk, Except.toBool, hpre, hd2p, hP, hEp]
                  · intro out h
                    simp [hpre, hd2p, hP, hEp] at h
                    rw [hEp]
                    exact h.symm
                | false =>
                  have hEp : (resolve (goJoin base (goClean userPath))).getD
                      (goJoin base (goClean userPath)) ≠ absBase := by
                    intro he; rw [he] at hE; simp at hE
                  constructor
                  · simp [Except.isOk, Except.toBool, hpre, hd2p, hP, hEp]
                  · intro out h; simp [hpre, hd2p, hP, hEp] at h
        | false =>
          have hd1p : rel ≠ "." := by
            intro he; rw [he] at hd1; simp at hd1
          cases hbase : resolve base with
          | none =>
            constructor
            · simp [Except.isOk, Except.toBool, hpre, hd1p]
            · intro out h; simp [hpre, hd1p] at h
          | some absBase =>
            cases hP : hasPrefixStr ((resolve (goJoin base (goClean userPath))).getD
                (goJoin base (goClean userPath)) ++ "/") (absBase ++ "/") with
            | true =>
              constructor
              · simp [Except.isOk, Except.toBool, hpre, hd1p, hP]
              · intro out h
                simp [hpre, hd1p, hP] at h
                exact h.symm
            | false =>
              cases hE : ((resolve (goJoin base (goClean userPath))).getD
                  (goJoin base (goClean userPath)) == absBase) with
              | true =>
                have hEp : (resolve (goJoin base (goClean userPath))).getD
                    (goJoin base (goClean userPath)) = absBase := eq_of_beq hE
                constructor
                · simp [Except.isOk, Except.toBool, hpre, hd1p, hP, hEp]
                · intro out h
                  simp [hpre, hd1p, hP, hEp] at h
                  rw [hEp]
                  exact h.symm
              | false =>
                have hEp : (resolve (goJoin base (goClean userPath))).getD
                    (goJoin base (goClean userPath)) ≠ absBase := by
                  intro he; rw [he] at hE; simp at hE
                constructor
                · simp [Except.isOk, Except.toBool, hpre, hd1p, hP, hEp]
                · intro out h; simp [hpre, hd1p, hP, hEp] at h

/-- C2 witness: the amended characterization applied at base `"/a"`,
candidate `"b"`, identity symlink resolution. -/
theorem C2_spec_witness :
    ("/a/b" : String) =
      ((fun s => (some s : Option String)) (goJoin "/a" (goClean "b"))).getD
        (goJoin "/a" (goClean "b")) ∧
    safeJoinWithin (fun s => some s) "/a" "b" = .ok "/a/b" :=
  ⟨(C2_spec (fun s => some s) "/a" "b").2 "/a/b" rfl, rfl⟩

/-! ## Heading regex and the title/search scan (tree.go)

`headingRE = ^\s*#{1,6}\s*(.+?)\s*$` with Go (leftmost-first) submatch
semantics.  `headingCapture` computes `m[1]` of `FindStringSubmatch`:
after the leading whitespace there must be at least one `#`; with `h` the
length of the `#` run and `r` the characters after the first `min 6 h`
hashes, the lazy group captures the trimmed `r` when `r` has a
non-whitespace character, the last character of `r` when `r` is non-empty
pure whitespace, and a single `#` (by giving one hash back) when `r` is
empty and `h ≥ 2`; a line `"#"` alone does not match. -/

/-- Character class `\s` of Go's RE2. -/
def goSpace (c : Char) : Bool :=
  c = ' ' || c = '\t' || c = '\n' || c = '\r' || c = '\x0c'

/-- Trim `\s` characters from both ends of a character list. -/
def trimCL (cs : List Char) : List Char :=
  ((cs.dropWhile goSpace).reverse.dropWhile goSpace).reverse

/-- Remainder of a candidate heading line: the characters after the leading
whitespace and the first `min 6 h` hash characters, where `h` is the length
of the hash run. -/
def remainderCL (line : String) : List Char :=
  (line.data.dropWhile goSpace).drop
    (min 6 ((line.data.dropWhile goSpace).takeWhile (fun c => c = '#')).length)

/-- Capture group of `headingRE` on one line (`none` when the line does not
match). -/
def headingCapture (line : String) : Option String :=
  if ((line.data.dropWhile goSpace).takeWhile (fun c => c = '#')).length = 0 then none
  else if remainderCL line = [] then
    if ((line.data.dropWhile goSpace).takeWhile (fun c => c = '#')).length ≥ 2 then
      some "#"
    else none
  else if (remainderCL line).all goSpace then
    match (remainderCL line).reverse with
    | [] => none
    | d :: _ => some ⟨[d]⟩
  else some ⟨trimCL (remainderCL line)⟩

/-- Filesystem-access oracles of the sandbox, as seen by the scanner:
`guard` is `safePathWithinNotes` (the Path Guard specialised to the
configured notes root; `none` is a rejection), `openOk safe` is the success
of `os.Open` on a file path, `listOk safe` is the success of `os.Open`
followed by `Readdirnames(1)` on a directory path, and `lines safe` is the
line sequence `bufio.Scanner` yields from an opened file.  All oracles are
pure, modelling an unchanging filesystem during a scan. -/
structure World where
  guard : String → Option String
  openOk : String → Bool
  listOk : String → Bool
  lines : String → List String

/-- Model of `isReadableFile` from `safeio.go`: guard the path, then open it
(the one-byte read's result is ignored by the Go code). -/
def isReadableFile (w : World) (p : String) : Bool :=
  match w.guard p with
  | some safe => w.openOk safe
  | none => false

/-- Model of `isListableDir` from `safeio.go`. -/
def isListableDir (w : World) (p : String) : Bool :=
  match w.guard p with
  | some safe => w.listOk safe
  | none => false

/-- One line's contribution to the remembered title: the first heading
capture sticks (`m != nil && title == ""` in the Go loop). -/
def scanStepTitle (line title : String) : String :=
  if title = "" then
    match headingCapture line with
    | some t => t
    | none => ""
  else title

/-- Scan loop of the two-argument `scanTitle`: remember the first heading
capture, record whether any line contains the (lowered) term, and stop as
soon as both are settled. -/
def scanLoop (lower : String) : List String → String → Bool → String × Bool
  | [], title, found => (title, found)
  | line :: rest, title, found =>
    if (found || containsStr (lowerStr line) lower) && !(scanStepTitle line title == "") then
      (scanStepTitle line title, found || containsStr (lowerStr line) lower)
    else
      scanLoop lower rest (scanStepTitle line title)
        (found || containsStr (lowerStr line) lower)

/-- Model of the two-argument `scanTitle(p, term)` from `tree.go`: returns
the first heading capture and whether the file contains `term`
case-insensitively (`true` from the start when `term` is empty). -/
def scanTitle (w : World) (p term : String) : String × Bool :=
  match w.guard p with
  | some safe =>
    if w.openOk safe then
      scanLoop (lowerStr term) (w.lines safe) "" (term == "")
    else ("", false)
  | none => ("", term == "")

/-- First heading capture of a line sequence (the loop of the one-argument
`scanTitle`). -/
def firstHeading : List String → String
  | [] => ""
  | line :: rest =>
    match headingCapture line with
    | some t => t
    | none => firstHeading rest

/-- Model of the one-argument `scanTitle(p)` (search-free variant): the
first heading capture of the guarded, opened file. -/
def scanTitleNS (w : World) (p : String) : String :=
  match w.guard p with
  | some safe => if w.openOk safe then firstHeading (w.lines safe) else ""
  | none => ""

/-! ## Claim C5 -/

/-- Whether a line matches the heading pattern. -/
def headingMatchesB (line : String) : Bool := (headingCapture line).isSome

/-- Trimmed remainder of a heading line — the title the specification
promises. -/
def remainderTrimmed (line : String) : String := ⟨trimCL (remainderCL line)⟩

/-- Title as the specification words it: the trimmed remainder of the first
line matching the heading pattern, empty when no line matches. -/
def specTitleOf : List String → String
  | [] => ""
  | line :: rest =>
    if headingMatchesB line then remainderTrimmed line else specTitleOf rest

/-- Membership in `dropWhile` for elements not satisfying the predicate. -/
theorem mem_dropWhile_of_neg {p : Char → Bool} {x : Char} {l : List Char}
    (hx : x ∈ l) (hp : p x = false) : x ∈ l.dropWhile p := by
  induction l with
  | nil => cases hx
  | cons y ys ih =>
    rw [List.dropWhile_cons]
    rcases List.mem_cons.mp hx with hxy | hxy
    · subst hxy
      simp [hp]
    · by_cases hy : p y = true
      · simp only [hy, if_pos rfl]
        exact ih hxy
      · simp [hy, List.mem_cons, hxy]

/-- A list with a non-whitespace character does not trim to nil. -/
theorem trimCL_ne_nil {cs : List Char} {x : Char} (hx : x ∈ cs)
    (hns : goSpace x = false) : trimCL cs ≠ [] := by
  intro hnil
  have h1 : x ∈ cs.dropWhile goSpace := mem_dropWhile_of_neg hx hns
  have h2 : x ∈ (cs.dropWhile goSpace).reverse := List.mem_reverse.mpr h1
  have h3 : x ∈ ((cs.dropWhile goSpace).reverse).dropWhile goSpace :=
    mem_dropWhile_of_neg h2 hns
  have h4 : x ∈ trimCL cs := List.mem_reverse.mpr h3
  rw [hnil] at h4
  cases h4

/-- Heading captures are never the empty string. -/
theorem headingCapture_ne_empty {line : String} {t : String}
    (h : headingCapture line = some t) : t ≠ "" := by
  unfold headingCapture at h
  by_cases h0 : ((line.data.dropWhile goSpace).takeWhile (fun c => c = '#')).length = 0
  · rw [if_pos h0] at h; cases h
  · rw [if_neg h0] at h
    by_cases hR : remainderCL line = []
    · rw [if_pos hR] at h
      by_cases h2 : ((line.data.dropWhile goSpace).takeWhile (fun c => c = '#')).length ≥ 2
      · rw [if_pos h2] at h
        injection h with h'
        subst h'
        intro he
        have : ("#" : String).data = ("" : String).data := congrArg String.data he
        cases this
      · rw [if_neg h2] at h; cases h
    · rw [if_neg hR] at h
      by_cases hws : ((remainderCL line).all goSpace : Bool) = true
      · rw [if_pos hws] at h
        cases hrev : (remainderCL line).reverse with
        | nil => exact absurd (List.reverse_eq_nil_iff.mp hrev) hR
        | cons d ds =>
          rw [hrev] at h
          injection h with h'
          subst h'
          intro he
          have : ([d] : List Char) = [] := congrArg String.data he
          cases this
      · rw [if_neg hws] at h
        injection h with h'
        subst h'
        intro he
        have hnil : trimCL (remainderCL line) = [] := congrArg String.data he
        have hws' : ¬ ∀ x ∈ remainderCL line, goSpace x = true := by
          intro hall
          exact hws (List.all_eq_true.mpr hall)
        push_neg at hws'
        rcases hws' with ⟨x, hx, hxs⟩
        exact trimCL_ne_nil hx (Bool.not_eq_true _ ▸ hxs) hnil


/-- Step function for the title component of the scan loop. -/
theorem scanLoop_fst (lower : String) (lines : List String) (title : String) (found : Bool) :
    (scanLoop lower lines title found).1 =
      (if title = "" then firstHeading lines else title) := by
  induction lines generalizing title found with
  | nil =>
    by_cases ht : title = "" <;> simp [scanLoop, firstHeading, ht]
  | cons line rest ih =>
    by_cases ht : title = ""
    · subst ht
      cases hc : headingCapture line with
      | none =>
        have hT : scanStepTitle line "" = "" := by simp [scanStepTitle, hc]
        simp only [scanLoop, hT]
        rw [if_neg (by simp)]
        rw [ih]
        simp [firstHeading, hc]
      | some t =>
        have htne : t ≠ "" := headingCapture_ne_empty hc
        have hT : scanStepTitle line "" = t := by simp [scanStepTitle, hc]
        simp only [scanLoop, hT, firstHeading, hc, if_pos rfl]
        split
        · rfl
        · rw [ih, if_neg htne]
          simp
    · have hT : scanStepTitle line title = title := by simp [scanStepTitle, ht]
      simp only [scanLoop, hT]
      rw [if_neg ht]
      split
      · rfl
      · rw [ih, if_neg ht]

/-- Step function for the match component of the scan loop: the search flag
is the disjunction of the initial flag and per-line containment, early exit
notwithstanding. -/
theorem scanLoop_snd (lower : String) (lines : List String) (title : String) (found : Bool) :
    (scanLoop lower lines title found).2 =
      (found || lines.any fun l => containsStr (lowerStr l) lower) := by
  induction lines generalizing title found with
  | nil => simp [scanLoop]
  | cons line rest ih =>
    simp only [scanLoop, List.any_cons]
    split
    next hc =>
      rcases Bool.and_eq_true_iff.mp hc with ⟨h1, -⟩
      rw [← Bool.or_assoc, h1]
      simp [Bool.or_eq_true_iff.mp h1]
    next hc =>
      rw [ih, ← Bool.or_assoc]

/-! ## Claim C5 theorems -/

/-- Oracle world whose every file is inside the sandbox, opens successfully
and contains the given lines. -/
def lineW (ls : List String) : World :=
  { guard := fun s => some s, openOk := fun _ => true, listOk := fun _ => true,
    lines := fun _ => ls }

/-- A heading line whose remainder contains a non-whitespace character. -/
def remainderNondegenerate (line : String) : Bool :=
  (remainderCL line).any fun c => !goSpace c

/-- On nondegenerate heading lines the capture is the trimmed remainder. -/
theorem headingCapture_nondegenerate {line : String}
    (hm : headingMatchesB line = true) (hnd : remainderNondegenerate line = true) :
    headingCapture line = some (remainderTrimmed line) := by
  rcases List.any_eq_true.mp hnd with ⟨x, hx, hxs⟩
  have hR : remainderCL line ≠ [] := by
    intro he; rw [he] at hx; cases hx
  have hws : ¬ ((remainderCL line).all goSpace = true) := by
    intro hall
    have := List.all_eq_true.mp hall x hx
    rw [this] at hxs; cases hxs
  have h0 : ¬ ((line.data.dropWhile goSpace).takeWhile (fun c => c = '#')).length = 0 := by
    intro h0
    unfold headingMatchesB headingCapture at hm
    rw [if_pos h0] at hm
    cases hm
  unfold headingCapture remainderTrimmed
  rw [if_neg h0, if_neg hR, if_neg hws]

/-- On line sequences whose matching lines are all nondegenerate, the first
heading capture is the specification's title. -/
theorem firstHeading_eq_spec (ls : List String)
    (hnd : ∀ l ∈ ls, headingMatchesB l = true → remainderNondegenerate l = true) :
    firstHeading ls = specTitleOf ls := by
  induction ls with
  | nil => rfl
  | cons line rest ih =>
    cases hc : headingCapture line with
    | none =>
      have hm : headingMatchesB line = false := by simp [headingMatchesB, hc]
      simp only [firstHeading, specTitleOf, hc, hm]
      rw [if_neg (by simp)]
      exact ih fun l hl => hnd l (List.mem_cons_of_mem _ hl)
    | some t =>
      have hm : headingMatchesB line = true := by simp [headingMatchesB, hc]
      have ht : t = remainderTrimmed line := by
        have := headingCapture_nondegenerate hm (hnd line (List.mem_cons_self _ _) hm)
        rw [hc] at this
        injection this
      simp only [firstHeading, specTitleOf, hc, hm, if_pos rfl]
      rw [ht]
      simp

/-- C5: the claim fails on the code: the file consisting of the single line
`"##"` matches the heading pattern with trimmed remainder `""`, yet
`scanTitle` reports the title `"#"` (the regex backtracks one hash into the
lazy capture group). -/
theorem C5_counterexample :
    (scanTitle (lineW ["##"]) "/notes/a.md" "").1 = "#" ∧
    specTitleOf ["##"] = "" ∧ ("#" : String) ≠ "" :=
  ⟨rfl, rfl, by decide⟩

/-- C5 (amended): for every readable file, `scanTitle` returns the trimmed
remainder of the first line matching the heading pattern (empty when no line
matches) provided that every matching line's remainder after its leading
hashes (capped at six) contains a non-whitespace character; degenerate
matching lines (`"##"`, `"#  "`, seven or more hashes, …) instead yield the
regex capture, which can be a bare `"#"` or a whitespace character. -/
theorem C5_amended (w : World) (p term safe : String)
    (hg : w.guard p = some safe) (ho : w.openOk safe = true)
    (hnd : ∀ l ∈ w.lines safe, headingMatchesB l = true →
      remainderNondegenerate l = true) :
    (scanTitle w p term).1 = specTitleOf (w.lines safe) := by
  unfold scanTitle
  rw [hg]
  simp only [ho, if_true]
  rw [scanLoop_fst, if_pos rfl]
  exact firstHeading_eq_spec _ hnd

/-- C5 witness: the amended claim applied to a file starting with
`"## Hello World"`; the title is `"Hello World"` as the specification's
example demands. -/
theorem C5_amended_witness :
    (scanTitle (lineW ["## Hello World"]) "/notes/a.md" "").1 =
      specTitleOf ["## Hello World"] ∧
    specTitleOf ["## Hello World"] = "Hello World" :=
  ⟨C5_amended (lineW ["## Hello World"]) "/notes/a.md" "" "/notes/a.md" rfl rfl
      (by decide),
   by decide⟩



/-! ## Filesystem model and the Scanner (tree.go)

A directory tree is modelled by the mutual inductive family below:
`FSTree.file statOk` is a non-directory entry (as `os.ReadDir` reports it,
so a symlink is a file here) whose `e.Info()` call succeeds iff `statOk`;
`FSTree.dir statOk contents` is a directory, with `FSDir.readErr` modelling
a failing `os.ReadDir` and `FSDir.readOk` its entry list (name/entry
pairs, in the on-disk order `os.ReadDir` would return).  Per-path
readability/listability and file contents come from the `World` oracles. -/

mutual
inductive FSTree where
  | file (statOk : Bool)
  | dir (statOk : Bool) (contents : FSDir)
  deriving DecidableEq, Repr
inductive FSDir where
  | readErr
  | readOk (es : FSEntries)
  deriving DecidableEq, Repr
inductive FSEntries where
  | nil
  | cons (name : String) (t : FSTree) (rest : FSEntries)
  deriving DecidableEq, Repr
end

/-- Entry list as a Lean list of name/entry pairs. -/
def FSEntries.toList : FSEntries → List (String × FSTree)
  | .nil => []
  | .cons n t rest => (n, t) :: rest.toList

/-- Whether an entry is a directory (`DirEntry.IsDir`). -/
def FSTree.isDirT : FSTree → Bool
  | .file _ => false
  | .dir _ _ => true

/-! Model of the `Node` struct of `tree.go`. -/
mutual
inductive Node where
  | mk (name path : String) (isDir expanded : Bool) (title : String) (children : NodeList)
  deriving DecidableEq, Repr
inductive NodeList where
  | nil
  | cons (n : Node) (rest : NodeList)
  deriving DecidableEq, Repr
end

def Node.name : Node → String
  | .mk n _ _ _ _ _ => n

def Node.path : Node → String
  | .mk _ p _ _ _ _ => p

def Node.isDir : Node → Bool
  | .mk _ _ d _ _ _ => d

def Node.expanded : Node → Bool
  | .mk _ _ _ e _ _ => e

def Node.title : Node → String
  | .mk _ _ _ _ t _ => t

def Node.children : Node → NodeList
  | .mk _ _ _ _ _ c => c

def NodeList.toList : NodeList → List Node
  | .nil => []
  | .cons n rest => n :: rest.toList

/-! A node together with all its descendants (preorder): `Node.collect`. -/
mutual
def Node.collect : Node → List Node
  | .mk n p d e t children => .mk n p d e t children :: children.collectAll
def NodeList.collectAll : NodeList → List Node
  | .nil => []
  | .cons n rest => n.collect ++ rest.collectAll
end

/-- Fixed extension allowlist from `config.go`. -/
def allowedExts (s : String) : Bool := s == ".md" || s == ".txt"

/-- The `sort.Slice` comparator of `readDirNodes`: directories strictly
before files, and case-insensitive lexicographic name order inside each
group. -/
def entLess (n1 : String) (t1 : FSTree) (n2 : String) (t2 : FSTree) : Bool :=
  if t1.isDirT && !t2.isDirT then true
  else if !t1.isDirT && t2.isDirT then false
  else clLt (lowerData n1) (lowerData n2)

/-- Insert an entry into an already sorted entry list (deterministic model
of the unspecified unstable `sort.Slice`; any comparator-consistent order
satisfies the ordering contract). -/
def insertEnt (name : String) (t : FSTree) : FSEntries → FSEntries
  | .nil => .cons name t .nil
  | .cons n2 t2 rest =>
    if entLess n2 t2 name t then .cons n2 t2 (insertEnt name t rest)
    else .cons name t (.cons n2 t2 rest)

/-- Insertion sort of one directory level. -/
def sortEnts : FSEntries → FSEntries
  | .nil => .nil
  | .cons n t rest => insertEnt n t (sortEnts rest)

/-! Sorting every directory level of the tree (`sortTree`).  The Go scanner
sorts each level at the moment it reads that directory and never mutates the
tree, so scanning a pre-sorted tree without re-sorting is behaviourally
identical; pre-sorting keeps the recursion structural. -/
mutual
def sortTree : FSTree → FSTree
  | .file s => .file s
  | .dir s .readErr => .dir s .readErr
  | .dir s (.readOk es) => .dir s (.readOk (sortEntsDeep es))
def sortEntsDeep : FSEntries → FSEntries
  | .nil => .nil
  | .cons n t rest => insertEnt n (sortTree t) (sortEntsDeep rest)
end

/-- Entry loop of the two-argument `readDirNodes(dir, term)` over an
already sorted entry list.  Per entry: skip when `e.Info()` fails; for a
directory, skip when not listable, and with an active search term descend
recursively (a failing recursive `ReadDir` — the `readErr` arm — or an
empty recursive result drops the directory, otherwise it is included
pre-expanded with the recursive children); with no search term include the
directory unexpanded with no children.  For a file: extension allowlist,
readability guard, then `scanTitle`, dropping term-misses when a term is
active. -/
def procEnts (w : World) (term dir : String) : FSEntries → NodeList
  | .nil => .nil
  | .cons name (.file sOk) rest =>
    if !sOk then procEnts w term dir rest
    else if !(allowedExts (lowerStr (goExt name))) then procEnts w term dir rest
    else if !(isReadableFile w (goJoin dir name)) then procEnts w term dir rest
    else if term != "" && !(scanTitle w (goJoin dir name) term).2 then
      procEnts w term dir rest
    else
      .cons (Node.mk name (goJoin dir name) false false
        (scanTitle w (goJoin dir name) term).1 .nil) (procEnts w term dir rest)
  | .cons name (.dir sOk .readErr) rest =>
    if !sOk then procEnts w term dir rest
    else if !(isListableDir w (goJoin dir name)) then procEnts w term dir rest
    else if term != "" then procEnts w term dir rest
    else
      .cons (Node.mk name (goJoin dir name) true false "" .nil) (procEnts w term dir rest)
  | .cons name (.dir sOk (.readOk es2)) rest =>
    if !sOk then procEnts w term dir rest
    else if !(isListableDir w (goJoin dir name)) then procEnts w term dir rest
    else if term != "" then
      match procEnts w term (goJoin dir name) es2 with
      | .nil => procEnts w term dir rest
      | .cons k ks =>
        .cons (Node.mk name (goJoin dir name) true true "" (.cons k ks))
          (procEnts w term dir rest)
    else
      .cons (Node.mk name (goJoin dir name) true false "" .nil) (procEnts w term dir rest)

/-- `os.ReadDir` outcome plus the entry loop, on a pre-sorted tree. -/
def readDirNodesCore (w : World) (term dir : String) : FSTree → Except String NodeList
  | .file _ => .error "readdir failed"
  | .dir _ .readErr => .error "readdir failed"
  | .dir _ (.readOk es) => .ok (procEnts w term dir es)

/-- Model of the two-argument `readDirNodes(dir, term)` from `tree.go`:
sort (every level of) the tree, then run the entry loop. -/
def readDirNodes (w : World) (term dir : String) (t : FSTree) : Except String NodeList :=
  readDirNodesCore w term dir (sortTree t)

/-- Entry loop of the search-free `readDirNodes(dir)` variant: no recursion,
directories are included collapsed with no children. -/
def procEntsNS (w : World) (dir : String) : FSEntries → NodeList
  | .nil => .nil
  | .cons name (.file sOk) rest =>
    if !sOk then procEntsNS w dir rest
    else if !(allowedExts (lowerStr (goExt name))) then procEntsNS w dir rest
    else if !(isReadableFile w (goJoin dir name)) then procEntsNS w dir rest
    else
      .cons (Node.mk name (goJoin dir name) false false
        (scanTitleNS w (goJoin dir name)) .nil) (procEntsNS w dir rest)
  | .cons name (.dir sOk _) rest =>
    if !sOk then procEntsNS w dir rest
    else if !(isListableDir w (goJoin dir name)) then procEntsNS w dir rest
    else
      .cons (Node.mk name (goJoin dir name) true false "" .nil) (procEntsNS w dir rest)

/-- Model of the search-free `readDirNodes(dir)` used for lazy expansion. -/
def readDirNodesNS (w : World) (dir : String) : FSTree → Except String NodeList
  | .file _ => .error "readdir failed"
  | .dir _ .readErr => .error "readdir failed"
  | .dir _ (.readOk es) => .ok (procEntsNS w dir (sortEnts es))

/-- Model of the two-argument `buildTree(root, term)` from `tree.go`:
`os.Stat` and the directory check, `isListableDir`, then the first level
scan; the synthetic root node is always expanded. -/
def buildTree (w : World) (root term : String) (t : FSTree) : Except String Node :=
  match t with
  | .file false => .error "stat failed"
  | .dir false _ => .error "stat failed"
  | .file true => .error "notesdir must point to a directory"
  | .dir true cont =>
    if !(isListableDir w root) then .error ("cannot read notesdir: " ++ root)
    else
      match readDirNodes w term root (.dir true cont) with
      | .error e => .error e
      | .ok kids => .ok (Node.mk (goBase root) root true true "" kids)

/-- Model of the search-free `buildTree(root)` used by reload. -/
def buildTreeNS (w : World) (root : String) (t : FSTree) : Except String Node :=
  match t with
  | .file false => .error "stat failed"
  | .dir false _ => .error "stat failed"
  | .file true => .error "notesdir must point to a directory"
  | .dir true cont =>
    if !(isListableDir w root) then .error ("cannot read notesdir: " ++ root)
    else
      match readDirNodesNS w root (.dir true cont) with
      | .error e => .error e
      | .ok kids => .ok (Node.mk (goBase root) root true true "" kids)



/-! ## Claim C10: the search-aware scanner with an empty term refines the
search-free scanner -/

/-- With an empty term the two-argument `scanTitle` computes the same title
as the one-argument variant. -/
theorem scanTitle_empty_term (w : World) (p : String) :
    (scanTitle w p "").1 = scanTitleNS w p := by
  unfold scanTitle scanTitleNS
  cases hg : w.guard p with
  | none => rfl
  | some safe =>
    cases ho : w.openOk safe with
    | false => simp [ho]
    | true =>
      simp only [ho, eq_self_iff_true, if_true]
      rw [scanLoop_fst, if_pos rfl]

/-- Map `sortTree` over the entries of one level. -/
def mapSortTree : FSEntries → FSEntries
  | .nil => .nil
  | .cons n t rest => .cons n (sortTree t) (mapSortTree rest)

/-- Sorting a subtree does not change whether it is a directory. -/
theorem isDirT_sortTree (t : FSTree) : (sortTree t).isDirT = t.isDirT := by
  cases t with
  | file s => rfl
  | dir s c => cases c <;> rfl

/-- The comparator only inspects names and directory-ness, so it is blind to
subtree sorting. -/
theorem entLess_sortTree (n1 : String) (t1 : FSTree) (n2 : String) (t2 : FSTree) :
    entLess n1 (sortTree t1) n2 (sortTree t2) = entLess n1 t1 n2 t2 := by
  unfold entLess
  rw [isDirT_sortTree, isDirT_sortTree]

theorem mapSortTree_insertEnt (n : String) (t : FSTree) :
    ∀ es : FSEntries,
      mapSortTree (insertEnt n t es) = insertEnt n (sortTree t) (mapSortTree es)
  | .nil => rfl
  | .cons n2 t2 rest => by
    simp only [insertEnt, mapSortTree]
    rw [entLess_sortTree]
    by_cases hc : entLess n2 t2 n t = true
    · rw [if_pos hc, if_pos hc]
      simp only [mapSortTree, mapSortTree_insertEnt n t rest]
    · rw [if_neg hc, if_neg hc]
      rfl

/-- Deep sorting is shallow sorting followed by sorting each subtree. -/
theorem sortEntsDeep_eq : ∀ es : FSEntries, sortEntsDeep es = mapSortTree (sortEnts es)
  | .nil => rfl
  | .cons n t rest => by
    simp only [sortEntsDeep, sortEnts, sortEntsDeep_eq rest, mapSortTree_insertEnt]

/-- With an empty term the entry loop ignores subtree contents and agrees
with the search-free loop. -/
theorem procEnts_empty_term (w : World) : ∀ (dir : String) (es : FSEntries),
    procEnts w "" dir (mapSortTree es) = procEntsNS w dir es
  | dir, .nil => rfl
  | dir, .cons name (.file sOk) rest => by
    simp only [mapSortTree, sortTree, procEnts, procEntsNS, scanTitle_empty_term,
      procEnts_empty_term w dir rest]
    simp
  | dir, .cons name (.dir sOk .readErr) rest => by
    simp only [mapSortTree, sortTree, procEnts, procEntsNS, procEnts_empty_term w dir rest]
    simp
  | dir, .cons name (.dir sOk (.readOk es2)) rest => by
    simp only [mapSortTree, sortTree, procEnts, procEntsNS, procEnts_empty_term w dir rest]
    simp

/-- C10: scanning with an empty search term produces exactly the node
sequence of the unfiltered scanner, and the search-aware `scanTitle` with an
empty term returns the same title as the one-argument `scanTitle`. -/
theorem C10_empty_term_equivalence :
    (∀ (w : World) (dir : String) (t : FSTree),
      readDirNodes w "" dir t = readDirNodesNS w dir t) ∧
    (∀ (w : World) (p : String), (scanTitle w p "").1 = scanTitleNS w p) := by
  constructor
  · intro w dir t
    cases t with
    | file s => rfl
    | dir s c =>
      cases c with
      | readErr => rfl
      | readOk es =>
        show Except.ok (procEnts w "" dir (sortEntsDeep es)) =
          Except.ok (procEntsNS w dir (sortEnts es))
        rw [sortEntsDeep_eq, procEnts_empty_term]
  · exact scanTitle_empty_term


/-! ## Per-entry characterization of the entry loop -/

/-- Whether one (pre-sorted) entry survives the entry-loop filters of the
two-argument scanner. -/
def keptB (w : World) (term dir : String) (name : String) : FSTree → Bool
  | .file sOk =>
    sOk && allowedExts (lowerStr (goExt name)) && isReadableFile w (goJoin dir name) &&
      !(term != "" && !(scanTitle w (goJoin dir name) term).2)
  | .dir sOk .readErr =>
    sOk && isListableDir w (goJoin dir name) && !(term != "")
  | .dir sOk (.readOk es2) =>
    sOk && isListableDir w (goJoin dir name) &&
      (!(term != "") || !(procEnts w term (goJoin dir name) es2 == NodeList.nil))

/-- The node a kept entry produces. -/
def nodeOf (w : World) (term dir name : String) : FSTree → Node
  | .file _ =>
    Node.mk name (goJoin dir name) false false (scanTitle w (goJoin dir name) term).1 .nil
  | .dir _ .readErr => Node.mk name (goJoin dir name) true (term != "") "" .nil
  | .dir _ (.readOk es2) =>
    Node.mk name (goJoin dir name) true (term != "") ""
      (if term != "" then procEnts w term (goJoin dir name) es2 else .nil)

/-- One step of the entry loop: keep-and-emit or skip. -/
theorem procEnts_cons (w : World) (term dir name : String) (e : FSTree) (rest : FSEntries) :
    procEnts w term dir (.cons name e rest) =
      (if keptB w term dir name e then
        NodeList.cons (nodeOf w term dir name e) (procEnts w term dir rest)
      else procEnts w term dir rest) := by
  cases e with
  | file sOk =>
    cases hs : sOk <;>
      cases ha : allowedExts (lowerStr (goExt name)) <;>
        cases hr : isReadableFile w (goJoin dir name) <;>
          cases hm : (term != "" && !(scanTitle w (goJoin dir name) term).2) <;>
            simp [procEnts, keptB, nodeOf, hs, ha, hr, hm]
  | dir sOk c =>
    cases c with
    | readErr =>
      cases hs : sOk <;>
        cases hl : isListableDir w (goJoin dir name) <;>
          cases ht : (term != "") <;>
            simp [procEnts, keptB, nodeOf, hs, hl, ht]
    | readOk es2 =>
      cases hs : sOk <;>
        cases hl : isListableDir w (goJoin dir name) <;>
          cases ht : (term != "") <;>
            cases hk : procEnts w term (goJoin dir name) es2 <;>
              simp [procEnts, keptB, nodeOf, hs, hl, ht, hk]

/-- The name, path and kind of an emitted node. -/
theorem nodeOf_name (w : World) (term dir name : String) (e : FSTree) :
    (nodeOf w term dir name e).name = name := by
  cases e with
  | file s => rfl
  | dir s c => cases c <;> rfl

theorem nodeOf_path (w : World) (term dir name : String) (e : FSTree) :
    (nodeOf w term dir name e).path = goJoin dir name := by
  cases e with
  | file s => rfl
  | dir s c => cases c <;> rfl

theorem nodeOf_isDir (w : World) (term dir name : String) (e : FSTree) :
    (nodeOf w term dir name e).isDir = e.isDirT := by
  cases e with
  | file s => rfl
  | dir s c => cases c <;> rfl

/-- Every node the entry loop emits comes from a kept entry. -/
theorem mem_procEnts (w : World) (term dir : String) :
    ∀ (es : FSEntries) (nd : Node), nd ∈ (procEnts w term dir es).toList →
      ∃ q ∈ es.toList, nd = nodeOf w term dir q.1 q.2 ∧ keptB w term dir q.1 q.2 = true
  | .nil, nd, h => absurd h (by simp [procEnts, NodeList.toList])
  | .cons name e rest, nd, h => by
    rw [procEnts_cons] at h
    by_cases hk : keptB w term dir name e = true
    · rw [if_pos hk] at h
      simp only [NodeList.toList, List.mem_cons] at h
      rcases h with h | h
      · exact ⟨(name, e), by simp [FSEntries.toList], h, hk⟩
      · rcases mem_procEnts w term dir rest nd h with ⟨q, hq, hnd, hkq⟩
        exact ⟨q, by simp [FSEntries.toList, hq], hnd, hkq⟩
    · rw [if_neg hk] at h
      rcases mem_procEnts w term dir rest nd h with ⟨q, hq, hnd, hkq⟩
      exact ⟨q, by simp [FSEntries.toList, hq], hnd, hkq⟩

/-- Every kept entry's node is emitted. -/
theorem nodeOf_mem_procEnts (w : World) (term dir : String) :
    ∀ (es : FSEntries) (name : String) (e : FSTree), (name, e) ∈ es.toList →
      keptB w term dir name e = true →
      nodeOf w term dir name e ∈ (procEnts w term dir es).toList
  | .nil, name, e, hmem, _ => absurd hmem (by simp [FSEntries.toList])
  | .cons n2 e2 rest, name, e, hmem, hk => by
    rw [procEnts_cons]
    simp only [FSEntries.toList, List.mem_cons] at hmem
    rcases hmem with heq | hmem
    · have h1 : name = n2 := congrArg Prod.fst heq
      have h2 : e = e2 := congrArg Prod.snd heq
      subst h1; subst h2
      rw [if_pos hk]
      simp [NodeList.toList]
    · have ih := nodeOf_mem_procEnts w term dir rest name e hmem hk
      by_cases hk2 : keptB w term dir n2 e2 = true
      · rw [if_pos hk2]
        simp [NodeList.toList, ih]
      · rw [if_neg hk2]
        exact ih

/-! ## Claim C3: ordering of the scanner result -/

/-- Two nodes in the order the specification demands: never a file strictly
before a directory, and case-insensitive name order inside a group. -/
def nodeOrd (a b : Node) : Prop :=
  (b.isDir = true → a.isDir = true) ∧
  (a.isDir = b.isDir → clLt (lowerData b.name) (lowerData a.name) = false)

/-- Non-strict entry order: the later entry is not strictly before the
earlier one. -/
def entLe (p q : String × FSTree) : Prop := entLess q.1 q.2 p.1 p.2 = false

theorem entLess_asymm {n1 n2 : String} {t1 t2 : FSTree}
    (h : entLess n1 t1 n2 t2 = true) : entLess n2 t2 n1 t1 = false := by
  unfold entLess at h ⊢
  cases h1 : t1.isDirT <;> cases h2 : t2.isDirT <;> simp [h1, h2] at h ⊢
  · exact clLt_asymm h
  · exact clLt_asymm h

theorem entLess_negtrans {n1 n2 n3 : String} {t1 t2 t3 : FSTree}
    (h1 : entLess n2 t2 n1 t1 = false) (h2 : entLess n3 t3 n2 t2 = false) :
    entLess n3 t3 n1 t1 = false := by
  unfold entLess at h1 h2 ⊢
  cases hd1 : t1.isDirT <;> cases hd2 : t2.isDirT <;> cases hd3 : t3.isDirT <;>
    simp [hd1, hd2, hd3] at h1 h2 ⊢
  · exact clLt_negtrans h1 h2
  · exact clLt_negtrans h1 h2

theorem mem_insertEnt (name : String) (t : FSTree) :
    ∀ (es : FSEntries) (q : String × FSTree), q ∈ (insertEnt name t es).toList →
      q = (name, t) ∨ q ∈ es.toList
  | .nil, q, h => by
    simp [insertEnt, FSEntries.toList] at h
    exact Or.inl h
  | .cons n2 t2 rest, q, h => by
    simp only [insertEnt] at h
    by_cases hc : entLess n2 t2 name t = true
    · rw [if_pos hc] at h
      simp only [FSEntries.toList, List.mem_cons] at h
      rcases h with h | h
      · exact Or.inr (by simp [FSEntries.toList, h])
      · rcases mem_insertEnt name t rest q h with h' | h'
        · exact Or.inl h'
        · exact Or.inr (by simp [FSEntries.toList, h'])
    · rw [if_neg hc] at h
      simp only [FSEntries.toList, List.mem_cons] at h
      rcases h with h | h
      · exact Or.inl h
      · exact Or.inr (by simp [FSEntries.toList, h])

theorem insertEnt_pairwise (name : String) (t : FSTree) :
    ∀ es : FSEntries, es.toList.Pairwise entLe →
      ((insertEnt name t es).toList).Pairwise entLe
  | .nil, _ => by simp [insertEnt, FSEntries.toList]
  | .cons n2 t2 rest, h => by
    simp only [FSEntries.toList, List.pairwise_cons] at h
    obtain ⟨hhead, htail⟩ := h
    simp only [insertEnt]
    by_cases hc : entLess n2 t2 name t = true
    · rw [if_pos hc]
      simp only [FSEntries.toList, List.pairwise_cons]
      constructor
      · intro q hq
        rcases mem_insertEnt name t rest q hq with hq' | hq'
        · subst hq'
          exact entLess_asymm hc
        · exact hhead q hq'
      · exact insertEnt_pairwise name t rest htail
    · have hc' : entLess n2 t2 name t = false := by
        cases hcc : entLess n2 t2 name t
        · rfl
        · exact absurd hcc hc
      rw [if_neg hc]
      simp only [FSEntries.toList, List.pairwise_cons]
      refine ⟨?_, hhead, htail⟩
      intro q hq
      simp only [List.mem_cons] at hq
      rcases hq with hq' | hq'
      · subst hq'
        exact hc'
      · exact entLess_negtrans hc' (hhead q hq')

theorem sortEnts_pairwise : ∀ es : FSEntries, ((sortEnts es).toList).Pairwise entLe
  | .nil => by simp [sortEnts, FSEntries.toList]
  | .cons n t rest => insertEnt_pairwise n t (sortEnts rest) (sortEnts_pairwise rest)

theorem toList_mapSortTree : ∀ es : FSEntries,
    (mapSortTree es).toList = es.toList.map (fun p => (p.1, sortTree p.2))
  | .nil => rfl
  | .cons n t rest => by
    simp [mapSortTree, FSEntries.toList, toList_mapSortTree rest]

theorem sortEntsDeep_pairwise (es : FSEntries) :
    ((sortEntsDeep es).toList).Pairwise entLe := by
  rw [sortEntsDeep_eq, toList_mapSortTree]
  rw [List.pairwise_map]
  refine (sortEnts_pairwise es).imp ?_
  intro p q h
  show entLess q.1 (sortTree q.2) p.1 (sortTree p.2) = false
  rw [entLess_sortTree]
  exact h

/-- An entry-order pair transfers to the emitted nodes. -/
theorem entLe_nodeOrd {w : World} {term dir : String} {p q : String × FSTree}
    (h : entLe p q) :
    nodeOrd (nodeOf w term dir p.1 p.2) (nodeOf w term dir q.1 q.2) := by
  unfold entLe entLess at h
  constructor
  · intro hbd
    rw [nodeOf_isDir] at hbd ⊢
    cases hd1 : p.2.isDirT <;> cases hd2 : q.2.isDirT <;> simp_all
  · intro heq
    rw [nodeOf_isDir, nodeOf_isDir] at heq
    rw [nodeOf_name, nodeOf_name]
    cases hd1 : p.2.isDirT <;> cases hd2 : q.2.isDirT <;> simp_all

/-- Sorted entries produce a node sequence ordered as the claim demands. -/
theorem procEnts_pairwise (w : World) (term dir : String) :
    ∀ es : FSEntries, es.toList.Pairwise entLe →
      ((procEnts w term dir es).toList).Pairwise nodeOrd
  | .nil, _ => by simp [procEnts, NodeList.toList]
  | .cons name e rest, h => by
    simp only [FSEntries.toList, List.pairwise_cons] at h
    obtain ⟨hhead, htail⟩ := h
    rw [procEnts_cons]
    have ih := procEnts_pairwise w term dir rest htail
    by_cases hk : keptB w term dir name e = true
    · rw [if_pos hk]
      simp only [NodeList.toList, List.pairwise_cons]
      refine ⟨?_, ih⟩
      intro nd hnd
      rcases mem_procEnts w term dir rest nd hnd with ⟨q, hq, rfl, -⟩
      exact entLe_nodeOrd (p := (name, e)) (hhead q hq)
    · rw [if_neg hk]
      exact ih

/-- C3: every successful two-argument scan lists all directories before all
files, each group in case-insensitive name order (expressed as pairwise
order of the result). -/
theorem C3_ordering (w : World) (term dir : String) (t : FSTree) (ns : NodeList)
    (h : readDirNodes w term dir t = .ok ns) : ns.toList.Pairwise nodeOrd := by
  cases t with
  | file s => cases h
  | dir s c =>
    cases c with
    | readErr => cases h
    | readOk es =>
      have : ns = procEnts w term dir (sortEntsDeep es) := by
        have h' : Except.ok (procEnts w term dir (sortEntsDeep es)) =
            (Except.ok ns : Except String NodeList) := h
        injection h' with h''
        exact h''.symm
      subst this
      exact procEnts_pairwise w term dir _ (sortEntsDeep_pairwise es)

/-- C3 witness: the ordering theorem applied to a concrete directory with a
subdirectory and two files. -/
theorem C3_ordering_witness :
    (NodeList.cons (Node.mk "sub" "/r/sub" true false "" .nil)
      (.cons (Node.mk "A.md" "/r/A.md" false false "" .nil)
        (.cons (Node.mk "b.md" "/r/b.md" false false "" .nil) .nil))).toList.Pairwise
      nodeOrd :=
  C3_ordering (lineW []) "" "/r"
    (.dir true (.readOk (.cons "b.md" (.file true)
      (.cons "A.md" (.file true)
        (.cons "sub" (.dir true (.readOk .nil)) .nil))))) _ rfl

/-! ## Claim C1: every constructed node's path passes the Path Guard -/

theorem guard_isSome_of_isReadableFile {w : World} {p : String}
    (h : isReadableFile w p = true) : (w.guard p).isSome := by
  unfold isReadableFile at h
  cases hg : w.guard p with
  | none => rw [hg] at h; cases h
  | some safe => simp

theorem guard_isSome_of_isListableDir {w : World} {p : String}
    (h : isListableDir w p = true) : (w.guard p).isSome := by
  unfold isListableDir at h
  cases hg : w.guard p with
  | none => rw [hg] at h; cases h
  | some safe => simp

/-- Descendant decomposition of `collectAll`. -/
theorem mem_collectAll : ∀ (ks : NodeList) (m : Node), m ∈ ks.collectAll →
    ∃ nd ∈ ks.toList, m ∈ nd.collect
  | .nil, m, h => absurd h (by simp [NodeList.collectAll])
  | .cons k ks, m, h => by
    simp only [NodeList.collectAll, List.mem_append] at h
    rcases h with h | h
    · exact ⟨k, by simp [NodeList.toList], h⟩
    · rcases mem_collectAll ks m h with ⟨nd, hnd, hm⟩
      exact ⟨nd, by simp [NodeList.toList, hnd], hm⟩

/-- Every node (and descendant) the entry loop emits has a guard-accepted
path: file nodes passed `isReadableFile`, directory nodes passed
`isListableDir`, and their children come from the recursive scan. -/
theorem procEnts_guard (w : World) (term : String) :
    ∀ (dir : String) (es : FSEntries) (nd : Node), nd ∈ (procEnts w term dir es).toList →
      ∀ m ∈ nd.collect, (w.guard m.path).isSome
  | dir, .nil, nd, h => absurd h (by simp [procEnts, NodeList.toList])
  | dir, .cons name e rest, nd, h => by
    rw [procEnts_cons] at h
    by_cases hk : keptB w term dir name e = true
    · rw [if_pos hk] at h
      simp only [NodeList.toList, List.mem_cons] at h
      rcases h with rfl | h
      · cases e with
        | file sOk =>
          simp only [keptB, Bool.and_eq_true] at hk
          obtain ⟨⟨⟨-, -⟩, hr⟩, -⟩ := hk
          intro m hm
          simp only [nodeOf, Node.collect, NodeList.collectAll, List.mem_singleton] at hm
          subst hm
          exact guard_isSome_of_isReadableFile hr
        | dir sOk c =>
          cases c with
          | readErr =>
            simp only [keptB, Bool.and_eq_true] at hk
            obtain ⟨⟨-, hl⟩, -⟩ := hk
            intro m hm
            simp only [nodeOf, Node.collect, NodeList.collectAll, List.mem_singleton] at hm
            subst hm
            exact guard_isSome_of_isListableDir hl
          | readOk es2 =>
            simp only [keptB, Bool.and_eq_true] at hk
            obtain ⟨⟨-, hl⟩, -⟩ := hk
            intro m hm
            simp only [nodeOf, Node.collect] at hm
            by_cases ht : (term != "") = true
            · rw [if_pos ht] at hm
              simp only [List.mem_cons] at hm
              rcases hm with rfl | hm
              · exact guard_isSome_of_isListableDir hl
              · rcases mem_collectAll _ _ hm with ⟨nd', hnd', hm'⟩
                exact procEnts_guard w term (goJoin dir name) es2 nd' hnd' m hm'
            · rw [if_neg ht] at hm
              simp only [NodeList.collectAll, List.mem_singleton] at hm
              subst hm
              exact guard_isSome_of_isListableDir hl
      · exact procEnts_guard w term dir rest nd h
    · rw [if_neg hk] at h
      exact procEnts_guard w term dir rest nd h

/-- Empty-term scans coincide with the search-free scanner (shared helper
behind the C10 equivalence). -/
theorem readDirNodes_empty (w : World) (dir : String) (t : FSTree) :
    readDirNodes w "" dir t = readDirNodesNS w dir t := by
  cases t with
  | file s => rfl
  | dir s c =>
    cases c with
    | readErr => rfl
    | readOk es =>
      show Except.ok (procEnts w "" dir (sortEntsDeep es)) =
        Except.ok (procEntsNS w dir (sortEnts es))
      rw [sortEntsDeep_eq, procEnts_empty_term]

/-- C1: every node of a tree built by `buildTree` (either variant) and every
node of a children sequence produced by `readDirNodes` (either variant,
hence also during lazy expansion), together with all its descendants, has a
path the Path Guard accepts; the guard oracle is a pure function of the
path, so re-checking the same path later yields the same acceptance. -/
theorem C1_guard_invariant (w : World) (term root dir : String) (t : FSTree) :
    (∀ rt, buildTree w root term t = .ok rt →
      ∀ m ∈ rt.collect, (w.guard m.path).isSome) ∧
    (∀ rt, buildTreeNS w root t = .ok rt →
      ∀ m ∈ rt.collect, (w.guard m.path).isSome) ∧
    (∀ ns, readDirNodes w term dir t = .ok ns →
      ∀ nd ∈ ns.toList, ∀ m ∈ nd.collect, (w.guard m.path).isSome) ∧
    (∀ ns, readDirNodesNS w dir t = .ok ns →
      ∀ nd ∈ ns.toList, ∀ m ∈ nd.collect, (w.guard m.path).isSome) := by
  have hscan : ∀ (term' : String) (ns : NodeList),
      readDirNodes w term' root t = .ok ns →
      ∀ nd ∈ ns.toList, ∀ m ∈ nd.collect, (w.guard m.path).isSome := by
    intro term' ns h nd hnd m hm
    cases t with
    | file s => cases h
    | dir s c =>
      cases c with
      | readErr => cases h
      | readOk es =>
        have hns : ns = procEnts w term' root (sortEntsDeep es) := by
          have h' : Except.ok (procEnts w term' root (sortEntsDeep es)) =
              (Except.ok ns : Except String NodeList) := h
          injection h' with h''
          exact h''.symm
        subst hns
        exact procEnts_guard w term' root (sortEntsDeep es) nd hnd m hm
  have hbuild : ∀ (term' : String) (rt : Node), buildTree w root term' t = .ok rt →
      ∀ m ∈ rt.collect, (w.guard m.path).isSome := by
    intro term' rt h m hm
    cases t with
    | file s => cases s <;> cases h
    | dir s c =>
      cases s with
      | false => cases h
      | true =>
        rw [show buildTree w root term' (FSTree.dir true c) =
            (if (!isListableDir w root) = true then
              Except.error ("cannot read notesdir: " ++ root)
            else
              match readDirNodes w term' root (FSTree.dir true c) with
              | Except.error e => Except.error e
              | Except.ok kids => Except.ok (Node.mk (goBase root) root true true "" kids))
          from rfl] at h
        by_cases hl : isListableDir w root = true
        · rw [if_neg (by simp [hl])] at h
          cases hscanres : readDirNodes w term' root (.dir true c) with
          | error e => rw [hscanres] at h; cases h
          | ok kids =>
            rw [hscanres] at h
            injection h with h'
            subst h'
            simp only [Node.collect, List.mem_cons] at hm
            rcases hm with rfl | hm
            · exact guard_isSome_of_isListableDir hl
            · rcases mem_collectAll _ _ hm with ⟨nd', hnd', hm'⟩
              exact hscan term' kids hscanres nd' hnd' m hm'
        · have hl' : isListableDir w root = false := by
            cases hll : isListableDir w root
            · rfl
            · exact absurd hll hl
          rw [if_pos (by simp [hl'])] at h
          cases h
  refine ⟨hbuild term, ?_, ?_, ?_⟩
  · intro rt h
    apply hbuild ""
    cases t with
    | file s => cases s <;> exact h
    | dir s c =>
      cases s with
      | false => exact h
      | true =>
        rw [show buildTree w root "" (FSTree.dir true c) =
            (if (!isListableDir w root) = true then
              Except.error ("cannot read notesdir: " ++ root)
            else
              match readDirNodes w "" root (FSTree.dir true c) with
              | Except.error e => Except.error e
              | Except.ok kids => Except.ok (Node.mk (goBase root) root true true "" kids))
          from rfl, readDirNodes_empty]
        exact h
  · intro ns h nd hnd m hm
    cases t with
    | file s => cases h
    | dir s c =>
      cases c with
      | readErr => cases h
      | readOk es =>
        have hns : ns = procEnts w term dir (sortEntsDeep es) := by
          have h' : Except.ok (procEnts w term dir (sortEntsDeep es)) =
              (Except.ok ns : Except String NodeList) := h
          injection h' with h''
          exact h''.symm
        subst hns
        exact procEnts_guard w term dir (sortEntsDeep es) nd hnd m hm
  · intro ns h
    rw [← readDirNodes_empty] at h
    intro nd hnd m hm
    cases t with
    | file s => cases h
    | dir s c =>
      cases c with
      | readErr => cases h
      | readOk es =>
        have hns : ns = procEnts w "" dir (sortEntsDeep es) := by
          have h' : Except.ok (procEnts w "" dir (sortEntsDeep es)) =
              (Except.ok ns : Except String NodeList) := h
          injection h' with h''
          exact h''.symm
        subst hns
        exact procEnts_guard w "" dir (sortEntsDeep es) nd hnd m hm

/-- C1 witness: the invariant applied to a concrete search-filtered build. -/
theorem C1_guard_invariant_witness :
    ∀ m ∈ (Node.mk "r" "/r" true true ""
      (.cons (Node.mk "sub" "/r/sub" true true ""
        (.cons (Node.mk "b.md" "/r/sub/b.md" false false "T" .nil) .nil))
        (.cons (Node.mk "a.md" "/r/a.md" false false "T" .nil) .nil))).collect,
      ((lineW ["# T", "token"]).guard m.path).isSome :=
  (C1_guard_invariant (lineW ["# T", "token"]) "token" "/r" "/r"
    (.dir true (.readOk (.cons "a.md" (.file true)
      (.cons "sub" (.dir true (.readOk (.cons "b.md" (.file true) .nil))) .nil))))).1
    _ rfl

/-! ## Claim C4: search filtering

`entMatches`/`anyMatch` express, independently of the entry loop, whether an
entry has a matching reachable descendant file: a file entry matches when it
is stat-able, has an allowed extension, passes the readability guard and its
scan finds the term; a directory entry matches when it is stat-able,
listable, its contents are readable and some entry below matches. -/

mutual
def entMatches (w : World) (term : String) : String → String → FSTree → Bool
  | dir, name, .file sOk =>
    sOk && allowedExts (lowerStr (goExt name)) && isReadableFile w (goJoin dir name) &&
      (scanTitle w (goJoin dir name) term).2
  | _, _, .dir _ .readErr => false
  | dir, name, .dir sOk (.readOk es2) =>
    sOk && isListableDir w (goJoin dir name) && anyMatch w term (goJoin dir name) es2

def anyMatch (w : World) (term : String) : String → FSEntries → Bool
  | _, .nil => false
  | dir, .cons name e rest => entMatches w term dir name e || anyMatch w term dir rest
end

theorem anyMatch_insert (w : World) (term : String) (dir name : String) (t : FSTree) :
    ∀ es : FSEntries, anyMatch w term dir (insertEnt name t es) =
      (entMatches w term dir name t || anyMatch w term dir es)
  | .nil => rfl
  | .cons n2 t2 rest => by
    simp only [insertEnt]
    by_cases hc : entLess n2 t2 name t = true
    · rw [if_pos hc]
      simp only [anyMatch, anyMatch_insert w term dir name t rest]
      cases h1 : entMatches w term dir name t <;>
        cases h2 : entMatches w term dir n2 t2 <;> simp
    · rw [if_neg hc]
      simp only [anyMatch]

mutual
theorem entMatches_sortTree (w : World) (term : String) :
    ∀ (dir name : String) (t : FSTree),
      entMatches w term dir name (sortTree t) = entMatches w term dir name t
  | _, _, .file s => rfl
  | _, _, .dir s .readErr => rfl
  | dir, name, .dir s (.readOk es2) => by
    simp only [sortTree, entMatches]
    rw [anyMatch_sortEntsDeep w term (goJoin dir name) es2]

theorem anyMatch_sortEntsDeep (w : World) (term : String) :
    ∀ (dir : String) (es : FSEntries),
      anyMatch w term dir (sortEntsDeep es) = anyMatch w term dir es
  | _, .nil => rfl
  | dir, .cons name t rest => by
    simp only [sortEntsDeep, anyMatch]
    rw [anyMatch_insert, entMatches_sortTree w term dir name t,
      anyMatch_sortEntsDeep w term dir rest]
end

/-! The kept-entry condition coincides with the matching condition whenever
a search term is active: this is the substance of the claim that a
directory is dropped exactly when no reachable descendant file matches. -/

mutual
theorem keptB_eq_entMatches (w : World) {term : String} (ht : term ≠ "") :
    ∀ (dir name : String) (e : FSTree),
      keptB w term dir name e = entMatches w term dir name e
  | dir, name, .file s => by
    have ht' : (term != "") = true := by simp [ht]
    simp only [keptB, entMatches, ht', Bool.true_and, Bool.not_not]
  | dir, name, .dir s .readErr => by
    have ht' : (term != "") = true := by simp [ht]
    simp [keptB, entMatches, ht']
  | dir, name, .dir s (.readOk es2) => by
    have ht' : (term != "") = true := by simp [ht]
    simp only [keptB, entMatches, ht', Bool.not_true, Bool.false_or]
    rw [procEnts_nilB w ht (goJoin dir name) es2]
    simp

theorem procEnts_nilB (w : World) {term : String} (ht : term ≠ "") :
    ∀ (dir : String) (es : FSEntries),
      (procEnts w term dir es == NodeList.nil) = !anyMatch w term dir es
  | _, .nil => rfl
  | dir, .cons name e rest => by
    rw [procEnts_cons]
    by_cases hk : keptB w term dir name e = true
    · rw [if_pos hk]
      have hent : entMatches w term dir name e = true := by
        rw [← keptB_eq_entMatches w ht dir name e]
        exact hk
      simp [anyMatch, hent]
    · rw [if_neg hk]
      have hent : entMatches w term dir name e = false := by
        rw [← keptB_eq_entMatches w ht dir name e]
        cases hkk : keptB w term dir name e
        · rfl
        · exact absurd hkk hk
      simp only [anyMatch, hent, Bool.false_or]
      exact procEnts_nilB w ht dir rest
end

/-! Membership and name-uniqueness transfer through the deep sort. -/

theorem mem_insertEnt_self (name : String) (t : FSTree) :
    ∀ es : FSEntries, (name, t) ∈ (insertEnt name t es).toList
  | .nil => by simp [insertEnt, FSEntries.toList]
  | .cons n2 t2 rest => by
    simp only [insertEnt]
    by_cases hc : entLess n2 t2 name t = true
    · rw [if_pos hc]
      simp [FSEntries.toList, mem_insertEnt_self name t rest]
    · rw [if_neg hc]
      simp [FSEntries.toList]

theorem mem_insertEnt_of_mem (name : String) (t : FSTree) {q : String × FSTree} :
    ∀ es : FSEntries, q ∈ es.toList → q ∈ (insertEnt name t es).toList
  | .nil, h => absurd h (by simp [FSEntries.toList])
  | .cons n2 t2 rest, h => by
    simp only [FSEntries.toList, List.mem_cons] at h
    simp only [insertEnt]
    by_cases hc : entLess n2 t2 name t = true
    · rw [if_pos hc]
      simp only [FSEntries.toList, List.mem_cons]
      rcases h with heq | hmem
      · exact Or.inl heq
      · exact Or.inr (mem_insertEnt_of_mem name t rest hmem)
    · rw [if_neg hc]
      simp only [FSEntries.toList, List.mem_cons]
      rcases h with heq | hmem
      · exact Or.inr (Or.inl heq)
      · exact Or.inr (Or.inr hmem)

theorem mem_sortEntsDeep {name : String} {e : FSTree} :
    ∀ es : FSEntries, (name, e) ∈ es.toList →
      (name, sortTree e) ∈ (sortEntsDeep es).toList
  | .nil, h => absurd h (by simp [FSEntries.toList])
  | .cons n2 e2 rest, h => by
    simp only [FSEntries.toList, List.mem_cons] at h
    simp only [sortEntsDeep]
    rcases h with heq | h
    · have h1 : name = n2 := congrArg Prod.fst heq
      have h2 : e = e2 := congrArg Prod.snd heq
      subst h1; subst h2
      exact mem_insertEnt_self name (sortTree e) (sortEntsDeep rest)
    · exact mem_insertEnt_of_mem n2 (sortTree e2) (sortEntsDeep rest)
        (mem_sortEntsDeep rest h)

theorem toList_insertEnt_perm (name : String) (t : FSTree) :
    ∀ es : FSEntries, ((insertEnt name t es).toList).Perm ((name, t) :: es.toList)
  | .nil => by simp [insertEnt, FSEntries.toList]
  | .cons n2 t2 rest => by
    simp only [insertEnt]
    by_cases hc : entLess n2 t2 name t = true
    · rw [if_pos hc]
      refine List.Perm.trans ?_ (List.Perm.swap (name, t) (n2, t2) rest.toList)
      simp only [FSEntries.toList]
      exact List.Perm.cons (n2, t2) (toList_insertEnt_perm name t rest)
    · rw [if_neg hc]
      simp [FSEntries.toList]

theorem toList_sortEntsDeep_perm :
    ∀ es : FSEntries, ((sortEntsDeep es).toList).Perm
      (es.toList.map fun p => (p.1, sortTree p.2))
  | .nil => by simp [sortEntsDeep, FSEntries.toList]
  | .cons n t rest => by
    simp only [sortEntsDeep, FSEntries.toList, List.map_cons]
    exact List.Perm.trans (toList_insertEnt_perm n (sortTree t) (sortEntsDeep rest))
      (List.Perm.cons (n, sortTree t) (toList_sortEntsDeep_perm rest))

/-- In a list with pairwise-distinct first components, equal first
components force equal pairs. -/
theorem eq_of_mem_nodup_fst :
    ∀ {l : List (String × FSTree)}, (l.map Prod.fst).Nodup →
      ∀ {a b : String × FSTree}, a ∈ l → b ∈ l → a.1 = b.1 → a = b := by
  intro l
  induction l with
  | nil => intro _ a b ha; cases ha
  | cons x xs ih =>
    intro h a b ha hb hab
    simp only [List.map_cons, List.nodup_cons] at h
    obtain ⟨hx, hxs⟩ := h
    simp only [List.mem_cons] at ha hb
    rcases ha with rfl | ha <;> rcases hb with rfl | hb
    · rfl
    · exact absurd (hab ▸ List.mem_map_of_mem Prod.fst hb) hx
    · exact absurd (hab ▸ List.mem_map_of_mem Prod.fst ha) (by rw [← hab] at hx ⊢; exact hx)
    · exact ih hxs ha hb hab

theorem readDirNodes_ok_elim {w : World} {term dir : String} {b : Bool} {es : FSEntries}
    {ns : NodeList} (h : readDirNodes w term dir (.dir b (.readOk es)) = .ok ns) :
    ns = procEnts w term dir (sortEntsDeep es) := by
  have h' : Except.ok (procEnts w term dir (sortEntsDeep es)) =
      (Except.ok ns : Except String NodeList) := h
  injection h' with h''
  exact h''.symm

theorem openOk_of_isReadableFile {w : World} {p safe : String}
    (hg : w.guard p = some safe) (h : isReadableFile w p = true) :
    w.openOk safe = true := by
  unfold isReadableFile at h
  rw [hg] at h
  exact h

/-- With an active term, the match flag of `scanTitle` on a guarded, opened
file is exactly per-line containment. -/
theorem scanTitle_found {w : World} {p term safe : String} (hterm : term ≠ "")
    (hg : w.guard p = some safe) (ho : w.openOk safe = true) :
    (scanTitle w p term).2 =
      (w.lines safe).any fun l => containsStr (lowerStr l) (lowerStr term) := by
  unfold scanTitle
  rw [hg]
  simp only [ho, eq_self_iff_true, if_true]
  rw [scanLoop_snd]
  have h1 : (term == "") = false := by simp [hterm]
  rw [h1, Bool.false_or]

/-- A guarded file none of whose lines contains the term does not match. -/
theorem scanTitle_not_found {w : World} {p term safe : String} (hterm : term ≠ "")
    (hg : w.guard p = some safe)
    (hno : ∀ l ∈ w.lines safe, containsStr (lowerStr l) (lowerStr term) = false) :
    (scanTitle w p term).2 = false := by
  unfold scanTitle
  rw [hg]
  by_cases ho : w.openOk safe = true
  · simp only [ho, eq_self_iff_true, if_true]
    rw [scanLoop_snd]
    have h1 : (term == "") = false := by simp [hterm]
    rw [h1, Bool.false_or]
    rw [List.any_eq_false]
    intro l hl
    simp [hno l hl]
  · have ho' : w.openOk safe = false := by
      cases hoo : w.openOk safe
      · rfl
      · exact absurd hoo ho
    simp [ho']

/-- C4: with a non-empty search term, `readDirNodes` (a) excludes a file
whose content (as seen through the guard) has no line containing the term
case-insensitively, (b) includes a stat-able, allowed, readable file with
such a line, (c) excludes a subdirectory without a matching reachable
descendant, and (d) includes a subdirectory with a matching descendant
pre-expanded, its children being exactly the recursive scan's non-empty
result. -/
theorem C4_search_filter (w : World) (term dir : String) (b : Bool) (es : FSEntries)
    (ns : NodeList) (hterm : term ≠ "")
    (h : readDirNodes w term dir (.dir b (.readOk es)) = .ok ns)
    (hnodup : (es.toList.map Prod.fst).Nodup) :
    ((∀ name sOk safe, (name, FSTree.file sOk) ∈ es.toList →
      w.guard (goJoin dir name) = some safe →
      (∀ l ∈ w.lines safe, containsStr (lowerStr l) (lowerStr term) = false) →
      ∀ nd ∈ ns.toList, nd.name ≠ name) ∧
    (∀ name sOk safe, (name, FSTree.file sOk) ∈ es.toList → sOk = true →
      allowedExts (lowerStr (goExt name)) = true →
      isReadableFile w (goJoin dir name) = true →
      w.guard (goJoin dir name) = some safe →
      (∃ l ∈ w.lines safe, containsStr (lowerStr l) (lowerStr term) = true) →
      ∃ nd ∈ ns.toList, nd.name = name ∧ nd.path = goJoin dir name ∧
        nd.isDir = false ∧ nd.title = (scanTitle w (goJoin dir name) term).1) ∧
    (∀ name sOk cont, (name, FSTree.dir sOk cont) ∈ es.toList →
      entMatches w term dir name (.dir sOk cont) = false →
      ∀ nd ∈ ns.toList, nd.name ≠ name) ∧
    (∀ name sOk cont, (name, FSTree.dir sOk cont) ∈ es.toList →
      entMatches w term dir name (.dir sOk cont) = true →
      ∃ nd ∈ ns.toList, nd.name = name ∧ nd.isDir = true ∧ nd.expanded = true ∧
        readDirNodes w term (goJoin dir name) (.dir sOk cont) = .ok nd.children ∧
        nd.children ≠ NodeList.nil)) := by
  have hns := readDirNodes_ok_elim h
  subst hns
  have ht' : (term != "") = true := by simp [hterm]
  have hsortedNodup : (((sortEntsDeep es).toList).map Prod.fst).Nodup := by
    have hperm := toList_sortEntsDeep_perm es
    have hmap := hperm.map Prod.fst
    have heq : ((es.toList.map fun p => (p.1, sortTree p.2)).map Prod.fst) =
        es.toList.map Prod.fst := by
      rw [List.map_map]
      rfl
    rw [heq] at hmap
    exact hmap.nodup_iff.mpr hnodup
  refine ⟨?_, ?_, ?_, ?_⟩
  · intro name sOk safe hmem hg hno nd hnd hname
    rcases mem_procEnts w term dir _ nd hnd with ⟨q, hq, rfl, hkq⟩
    rw [nodeOf_name] at hname
    have hmem' : (name, FSTree.file sOk) ∈ (sortEntsDeep es).toList := by
      have := mem_sortEntsDeep es hmem
      simpa [sortTree] using this
    have hq' : q = (name, FSTree.file sOk) :=
      eq_of_mem_nodup_fst hsortedNodup hq hmem' (by rw [hname])
    rw [hq'] at hkq
    have hfound : (scanTitle w (goJoin dir name) term).2 = false :=
      scanTitle_not_found hterm hg hno
    simp [keptB, hfound, ht'] at hkq
  · intro name sOk safe hmem hs ha hr hg hyes
    have ho : w.openOk safe = true := openOk_of_isReadableFile hg hr
    have hfound : (scanTitle w (goJoin dir name) term).2 = true := by
      rw [scanTitle_found hterm hg ho]
      rcases hyes with ⟨l, hl, hcon⟩
      exact List.any_eq_true.mpr ⟨l, hl, by simpa using hcon⟩
    have hkept : keptB w term dir name (.file sOk) = true := by
      simp [keptB, hs, ha, hr, hfound]
    have hmem' : (name, FSTree.file sOk) ∈ (sortEntsDeep es).toList := by
      have := mem_sortEntsDeep es hmem
      simpa [sortTree] using this
    exact ⟨nodeOf w term dir name (.file sOk),
      nodeOf_mem_procEnts w term dir _ name (.file sOk) hmem' hkept,
      nodeOf_name w term dir name _, nodeOf_path w term dir name _, rfl, rfl⟩
  · intro name sOk cont hmem hnm nd hnd hname
    rcases mem_procEnts w term dir _ nd hnd with ⟨q, hq, rfl, hkq⟩
    rw [nodeOf_name] at hname
    have hmem' : (name, sortTree (FSTree.dir sOk cont)) ∈ (sortEntsDeep es).toList :=
      mem_sortEntsDeep es hmem
    have hq' : q = (name, sortTree (FSTree.dir sOk cont)) :=
      eq_of_mem_nodup_fst hsortedNodup hq hmem' (by rw [hname])
    rw [hq'] at hkq
    rw [keptB_eq_entMatches w hterm, entMatches_sortTree] at hkq
    rw [hnm] at hkq
    cases hkq
  · intro name sOk cont hmem hm
    cases cont with
    | readErr =>
      rw [show entMatches w term dir name (.dir sOk .readErr) = false from rfl] at hm
      cases hm
    | readOk es2 =>
      have hkept : keptB w term dir name (sortTree (.dir sOk (.readOk es2))) = true := by
        rw [keptB_eq_entMatches w hterm, entMatches_sortTree]
        exact hm
      have hmem' : (name, sortTree (FSTree.dir sOk (.readOk es2))) ∈
          (sortEntsDeep es).toList := mem_sortEntsDeep es hmem
      refine ⟨nodeOf w term dir name (sortTree (.dir sOk (.readOk es2))),
        nodeOf_mem_procEnts w term dir _ name _ hmem' hkept,
        nodeOf_name w term dir name _, ?_, ?_, ?_, ?_⟩
      · rw [nodeOf_isDir]
        rfl
      · show (nodeOf w term dir name (.dir sOk (.readOk (sortEntsDeep es2)))).expanded = true
        simp [nodeOf, Node.expanded, ht']
      · show readDirNodes w term (goJoin dir name) (.dir sOk (.readOk es2)) =
          .ok (nodeOf w term dir name (.dir sOk (.readOk (sortEntsDeep es2)))).children
        simp only [nodeOf, Node.children, ht', if_true, eq_self_iff_true]
        rfl
      · show (nodeOf w term dir name (.dir sOk (.readOk (sortEntsDeep es2)))).children ≠
          NodeList.nil
        simp only [nodeOf, Node.children, ht', if_true, eq_self_iff_true]
        simp only [keptB, ht', Bool.not_true, Bool.false_or, Bool.and_eq_true,
          sortTree] at hkept
        obtain ⟨-, hne⟩ := hkept
        intro heq
        rw [heq] at hne
        simp at hne

/-- Concrete world for the C4 witness: `a.md` contains the term, `b.md`
does not. -/
def w4 : World :=
  { guard := fun s => some s, openOk := fun _ => true, listOk := fun _ => true,
    lines := fun p => if p = "/r/a.md" then ["# A", "has token"] else ["nothing"] }

/-- Entry list for the C4 witness. -/
def es4 : FSEntries := .cons "a.md" (.file true) (.cons "b.md" (.file true) .nil)

/-- C4 witness: the inclusion conjunct applied to the matching file
`a.md`. -/
theorem C4_search_filter_witness :
    ∃ nd ∈ (NodeList.cons (Node.mk "a.md" "/r/a.md" false false "A" .nil) .nil).toList,
      nd.name = "a.md" ∧ nd.path = goJoin "/r" "a.md" ∧ nd.isDir = false ∧
        nd.title = (scanTitle w4 (goJoin "/r" "a.md") "token").1 :=
  (C4_search_filter w4 "token" "/r" true es4
      (NodeList.cons (Node.mk "a.md" "/r/a.md" false false "A" .nil) .nil)
      (by decide) rfl (by decide)).2.1 "a.md" true "/r/a.md"
    (by decide) rfl rfl rfl rfl ⟨"has token", by decide, by decide⟩

/-! ## Node Store mutation: `expandIfNeeded` (tui.go), claims C6 and C7 -/

/-- Model of `expandIfNeeded(n)`: returns the post-call node (Go mutates in
place), the success flag (`true` iff the Go function returns `nil`), and
whether the filesystem scan `readDirNodes(n.Path)` was invoked.  `t` is the
filesystem subtree at `n.Path`. -/
def expandIfNeededS (w : World) (t : FSTree) (n : Node) : Node × Bool × Bool :=
  if !n.isDir then (n, true, false)
  else if n.expanded && !(n.children == NodeList.nil) then (n, true, false)
  else if n.children == NodeList.nil then
    match readDirNodesNS w n.path t with
    | .error _ => (n, false, true)
    | .ok kids => (Node.mk n.name n.path n.isDir true n.title kids, true, true)
  else (Node.mk n.name n.path n.isDir true n.title n.children, true, false)

/-- C6: the claim fails on the code: expanding an empty directory twice
re-invokes the filesystem scan the second time, because `expandIfNeeded`
treats empty children as "not yet populated".  First call: success, scan
performed, children empty; second call on the result: the scan runs
again. -/
theorem C6_counterexample :
    (expandIfNeededS (lineW []) (.dir true (.readOk .nil))
        (Node.mk "sub" "/r/sub" true false "" .nil)).2 = (true, true) ∧
    (expandIfNeededS (lineW []) (.dir true (.readOk .nil))
        ((expandIfNeededS (lineW []) (.dir true (.readOk .nil))
          (Node.mk "sub" "/r/sub" true false "" .nil)).1)).2.2 = true :=
  ⟨rfl, rfl⟩

/-- C6 (amended): after a successful `Expand`, a second `Expand` (same
filesystem) returns success and leaves the node — in particular its
children — exactly as the first call left it; the second call skips the
scan provided the first call left a non-empty children sequence, while on an
empty directory the scan is re-invoked (returning the same empty
children). -/
theorem C6_amended (w : World) (t : FSTree) (n : Node)
    (hok : (expandIfNeededS w t n).2.1 = true) :
    (expandIfNeededS w t (expandIfNeededS w t n).1).1 = (expandIfNeededS w t n).1 ∧
    (expandIfNeededS w t (expandIfNeededS w t n).1).2.1 = true ∧
    ((expandIfNeededS w t n).1.children ≠ NodeList.nil →
      (expandIfNeededS w t (expandIfNeededS w t n).1).2.2 = false) := by
  cases n with
  | mk name path isDir exp title children =>
    cases isDir with
    | false =>
      refine ⟨?_, ?_, ?_⟩ <;> simp [expandIfNeededS, Node.isDir]
    | true =>
      cases children with
      | cons k ks =>
        cases exp <;> refine ⟨?_, ?_, ?_⟩ <;>
          simp [expandIfNeededS, Node.isDir, Node.expanded, Node.children,
            Node.name, Node.path, Node.title]
      | nil =>
        cases hscan : readDirNodesNS w path t with
        | error e =>
          cases exp <;>
            simp [expandIfNeededS, Node.isDir, Node.expanded, Node.children,
              Node.name, Node.path, Node.title, hscan] at hok
        | ok kids =>
          cases kids with
          | nil =>
            cases exp <;>
              simp [expandIfNeededS, Node.isDir, Node.expanded, Node.children,
                Node.name, Node.path, Node.title, hscan]
          | cons k ks =>
            cases exp <;>
              simp [expandIfNeededS, Node.isDir, Node.expanded, Node.children,
                Node.name, Node.path, Node.title, hscan]

/-- C6 witness: the amended claim on a directory with one note file: the
second call is a no-op without a scan. -/
theorem C6_amended_witness :
    (expandIfNeededS (lineW ["# X"]) (.dir true (.readOk (.cons "a.md" (.file true) .nil)))
        ((expandIfNeededS (lineW ["# X"])
          (.dir true (.readOk (.cons "a.md" (.file true) .nil)))
          (Node.mk "sub" "/r/sub" true false "" .nil)).1)).1 =
      (expandIfNeededS (lineW ["# X"]) (.dir true (.readOk (.cons "a.md" (.file true) .nil)))
        (Node.mk "sub" "/r/sub" true false "" .nil)).1 ∧
    (expandIfNeededS (lineW ["# X"]) (.dir true (.readOk (.cons "a.md" (.file true) .nil)))
        ((expandIfNeededS (lineW ["# X"])
          (.dir true (.readOk (.cons "a.md" (.file true) .nil)))
          (Node.mk "sub" "/r/sub" true false "" .nil)).1)).2.1 = true ∧
    ((expandIfNeededS (lineW ["# X"]) (.dir true (.readOk (.cons "a.md" (.file true) .nil)))
        (Node.mk "sub" "/r/sub" true false "" .nil)).1.children ≠ NodeList.nil →
      (expandIfNeededS (lineW ["# X"]) (.dir true (.readOk (.cons "a.md" (.file true) .nil)))
        ((expandIfNeededS (lineW ["# X"])
          (.dir true (.readOk (.cons "a.md" (.file true) .nil)))
          (Node.mk "sub" "/r/sub" true false "" .nil)).1)).2.2 = false) :=
  C6_amended (lineW ["# X"]) (.dir true (.readOk (.cons "a.md" (.file true) .nil)))
    (Node.mk "sub" "/r/sub" true false "" .nil) rfl

/-- C7: when `expandIfNeeded` actually performs the Scanner call, an error
leaves the node exactly as it was (children still empty, expansion flag
untouched) and propagates the failure, while success populates the children
with the scan result and sets the expansion flag — no partially mutated
state is observable. -/
theorem C7_expand_no_partial (w : World) (t : FSTree) (n : Node)
    (hscan : (expandIfNeededS w t n).2.2 = true) :
    ((expandIfNeededS w t n).2.1 = false →
      (expandIfNeededS w t n).1 = n ∧ n.children = NodeList.nil ∧
      (expandIfNeededS w t n).1.expanded = n.expanded) ∧
    ((expandIfNeededS w t n).2.1 = true →
      (expandIfNeededS w t n).1.expanded = true ∧
      readDirNodesNS w n.path t = .ok (expandIfNeededS w t n).1.children ∧
      (expandIfNeededS w t n).1.name = n.name ∧
      (expandIfNeededS w t n).1.path = n.path) := by
  cases n with
  | mk name path isDir exp title children =>
    cases isDir with
    | false => simp [expandIfNeededS, Node.isDir] at hscan
    | true =>
      cases children with
      | cons k ks =>
        cases exp <;>
          simp [expandIfNeededS, Node.isDir, Node.expanded, Node.children] at hscan
      | nil =>
        cases hscanres : readDirNodesNS w path t with
        | error e =>
          cases exp <;>
            simp [expandIfNeededS, Node.isDir, Node.expanded, Node.children,
              Node.name, Node.path, Node.title, hscanres]
        | ok kids =>
          cases exp <;>
            simp [expandIfNeededS, Node.isDir, Node.expanded, Node.children,
              Node.name, Node.path, Node.title, hscanres]

/-- C7 witness: the no-partial-mutation property at a concrete failing scan
(the path resolves to a plain file, so `readDirNodes` fails) and the node is
untouched. -/
theorem C7_expand_no_partial_witness :
    ((expandIfNeededS (lineW []) (.file true)
        (Node.mk "sub" "/r/sub" true false "" .nil)).2.1 = false →
      (expandIfNeededS (lineW []) (.file true)
        (Node.mk "sub" "/r/sub" true false "" .nil)).1 =
        Node.mk "sub" "/r/sub" true false "" .nil ∧
      (Node.mk "sub" "/r/sub" true false "" .nil).children = NodeList.nil ∧
      (expandIfNeededS (lineW []) (.file true)
        (Node.mk "sub" "/r/sub" true false "" .nil)).1.expanded =
        (Node.mk "sub" "/r/sub" true false "" .nil).expanded) ∧
    ((expandIfNeededS (lineW []) (.file true)
        (Node.mk "sub" "/r/sub" true false "" .nil)).2.1 = true →
      (expandIfNeededS (lineW []) (.file true)
        (Node.mk "sub" "/r/sub" true false "" .nil)).1.expanded = true ∧
      readDirNodesNS (lineW []) (Node.mk "sub" "/r/sub" true false "" .nil).path
          (.file true) =
        .ok (expandIfNeededS (lineW []) (.file true)
          (Node.mk "sub" "/r/sub" true false "" .nil)).1.children ∧
      (expandIfNeededS (lineW []) (.file true)
        (Node.mk "sub" "/r/sub" true false "" .nil)).1.name =
        (Node.mk "sub" "/r/sub" true false "" .nil).name ∧
      (expandIfNeededS (lineW []) (.file true)
        (Node.mk "sub" "/r/sub" true false "" .nil)).1.path =
        (Node.mk "sub" "/r/sub" true false "" .nil).path) :=
  C7_expand_no_partial (lineW []) (.file true)
    (Node.mk "sub" "/r/sub" true false "" .nil) rfl

/-! ## Projection/Navigator (tui.go), claims C8 and C9 -/

/-- A visible entry: a node paired with its nesting depth. -/
structure Visible where
  n : Node
  depth : Nat
deriving DecidableEq, Repr

/-! Model of `flatten`: preorder walk descending only into expanded
directories. -/
mutual
def flattenN : Node → Nat → List Visible
  | .mk name path isDir exp title children, d =>
    ⟨.mk name path isDir exp title children, d⟩ ::
      (if isDir && exp then flattenL children (d + 1) else [])
def flattenL : NodeList → Nat → List Visible
  | .nil, _ => []
  | .cons n rest, d => flattenN n d ++ flattenL rest d
end

/-- Model of the Bubble Tea `model` struct (terminal sizes, cursor and
scroll are Go ints). -/
structure TuiModel where
  root : Node
  cursor : Int
  visible : List Visible
  status : String
  width : Int
  height : Int
  scroll : Int
deriving Repr

def minTopMargin : Int := 2
def minBottomMargin : Int := 2

/-- First scroll adjustment step: keep the top margin. -/
def scrollA (m : TuiModel) : Int :=
  if m.cursor < m.scroll + minTopMargin then max 0 (m.cursor - minTopMargin)
  else m.scroll

/-- Second step: keep the bottom margin (sees the step-one scroll). -/
def scrollB (m : TuiModel) : Int :=
  if m.cursor ≥ scrollA m + (m.height - 4) - minBottomMargin then
    max 0 (m.cursor - (m.height - 4) + minBottomMargin + 1)
  else scrollA m

/-- Third step: clamp so the window does not run past the end. -/
def scrollC (m : TuiModel) : Int :=
  if scrollB m > max 0 ((m.visible.length : Int) - (m.height - 4)) then
    max 0 ((m.visible.length : Int) - (m.height - 4))
  else scrollB m

/-- Model of `adjustScroll`: no-op for non-positive heights or usable
heights, otherwise the three-step margin/clamp adjustment with a usable
height of `height - 4` (two header rows, two footer rows). -/
def adjustScroll (m : TuiModel) : TuiModel :=
  if m.height ≤ 0 then m
  else if m.height - 4 ≤ 0 then m
  else { m with scroll := scrollC m }

/-- Model of `recompute`: rebuild the visible sequence from the root's
children (the synthetic root itself is hidden), clamp the cursor, adjust
the scroll. -/
def recompute (m : TuiModel) : TuiModel :=
  adjustScroll { m with
    visible := flattenL m.root.children 0,
    cursor :=
      if m.cursor ≥ ((flattenL m.root.children 0).length : Int) then
        (if (flattenL m.root.children 0).length = 0 then 0
         else ((flattenL m.root.children 0).length : Int) - 1)
      else m.cursor }

/-- Model of the `down`/`j` key handler. -/
def moveDown (m : TuiModel) : TuiModel :=
  if m.cursor < (m.visible.length : Int) - 1 then
    adjustScroll { m with cursor := m.cursor + 1 }
  else m

/-- Model of the `up`/`k` key handler. -/
def moveUp (m : TuiModel) : TuiModel :=
  if m.cursor > 0 then adjustScroll { m with cursor := m.cursor - 1 }
  else m

/-- Model of the `r` (reload) key handler: rebuild via the search-free
`buildTree`, reset the cursor to 0, recompute; on failure only the status
changes. -/
def reloadKey (w : World) (t : FSTree) (rootPath : String) (m : TuiModel) : TuiModel :=
  match buildTreeNS w rootPath t with
  | .ok root => recompute { m with root := root, cursor := 0, status := "reloaded" }
  | .error e => { m with status := "reload failed: " ++ e }

/-- Usable row count of `View`: `height - 4`, replaced by the full visible
length when that is less than one. -/
def viewUsable (m : TuiModel) : Int :=
  if m.height - 4 < 1 then (m.visible.length : Int) else m.height - 4

/-- Index one past the last rendered row. -/
def viewEnd (m : TuiModel) : Int :=
  min (m.visible.length : Int) (m.scroll + viewUsable m)

/-- The rows `View` renders: indices `[scroll, viewEnd)`. -/
def viewWindow (m : TuiModel) : List Visible :=
  (m.visible.drop m.scroll.toNat).take (viewEnd m - m.scroll).toNat

/-- Whether the visible entry at index `i` is inside the render window. -/
def indexVisibleB (m : TuiModel) (i : Int) : Bool :=
  decide (m.scroll ≤ i) && decide (i < viewEnd m)

theorem adjustScroll_cursor (m : TuiModel) : (adjustScroll m).cursor = m.cursor := by
  unfold adjustScroll
  split
  · rfl
  · split <;> rfl

theorem adjustScroll_visible (m : TuiModel) : (adjustScroll m).visible = m.visible := by
  unfold adjustScroll
  split
  · rfl
  · split <;> rfl

/-- With the cursor at 0, a previously non-negative scroll and at least
three usable rows, `adjustScroll` lands on scroll 0. -/
theorem adjustScroll_scroll_zero (m : TuiModel) (hc : m.cursor = 0)
    (hs : 0 ≤ m.scroll) (hu : 3 ≤ m.height - 4) :
    (adjustScroll m).scroll = 0 := by
  have hA : scrollA m = 0 := by
    unfold scrollA minTopMargin
    rw [hc, if_pos (by omega)]
    omega
  have hB : scrollB m = 0 := by
    unfold scrollB minBottomMargin
    rw [hA, hc, if_neg (by omega)]
  have hC : scrollC m = 0 := by
    unfold scrollC
    rw [hB]
    rw [if_neg (by omega)]
  unfold adjustScroll
  rw [if_neg (by omega), if_neg (by omega)]
  exact hC

theorem adjustScroll_height (m : TuiModel) : (adjustScroll m).height = m.height := by
  unfold adjustScroll
  split
  · rfl
  · split <;> rfl

/-! ## Claim C9 -/

/-- A model with three visible entries, a four-row terminal (zero usable
rows) and a stale scroll of 1. -/
def m9 : TuiModel :=
  { root := Node.mk "r" "/r" true true "" .nil, cursor := 0,
    visible := [⟨Node.mk "a.md" "/r/a.md" false false "" .nil, 0⟩,
      ⟨Node.mk "b.md" "/r/b.md" false false "" .nil, 0⟩,
      ⟨Node.mk "c.md" "/r/c.md" false false "" .nil, 0⟩],
    status := "", width := 80, height := 4, scroll := 1 }

/-- A one-entry model with a three-row terminal and scroll 0. -/
def m9w : TuiModel :=
  { root := Node.mk "r" "/r" true true "" .nil, cursor := 0,
    visible := [⟨Node.mk "a.md" "/r/a.md" false false "" .nil, 0⟩],
    status := "", width := 80, height := 3, scroll := 0 }

/-- C9: the claim fails on the code: with a non-positive usable height the
render window is the visible sequence from the current scroll index onward,
not from index 0 — a model whose scroll is 1 (left stale by `adjustScroll`,
which returns untouched when the usable height is non-positive) renders
only the tail. -/
theorem C9_counterexample :
    m9.height - 4 ≤ 0 ∧ viewWindow m9 ≠ m9.visible ∧
      viewWindow m9 = m9.visible.drop 1 :=
  ⟨by decide, by decide, by decide⟩

/-- C9 (amended): the usable row count is the terminal height minus 4 (two
header and two footer rows): with a positive usable height the window
length is `min (height - 4) (remaining entries after scroll)`; with a
non-positive usable height the window is every visible entry from the
scroll index onward — the whole sequence exactly when the scroll is 0. -/
theorem C9_window (m : TuiModel) (hs : 0 ≤ m.scroll) :
    (m.height - 4 ≤ 0 → viewWindow m = m.visible.drop m.scroll.toNat) ∧
    (m.height - 4 ≤ 0 ∧ m.scroll = 0 → viewWindow m = m.visible) ∧
    (1 ≤ m.height - 4 →
      (viewWindow m).length =
        min (m.height - 4).toNat (m.visible.length - m.scroll.toNat)) := by
  refine ⟨?_, ?_, ?_⟩
  · intro hu
    unfold viewWindow viewEnd viewUsable
    rw [if_pos (by omega)]
    apply List.take_of_length_le
    rw [List.length_drop]
    omega
  · intro hz
    unfold viewWindow viewEnd viewUsable
    rw [if_pos (by omega), hz.2]
    simp only [Int.toNat_zero, List.drop_zero]
    apply List.take_of_length_le
    omega
  · intro hu
    unfold viewWindow viewEnd viewUsable
    rw [if_neg (by omega)]
    rw [List.length_take, List.length_drop]
    omega

/-- C9 witness: the amended claim at a degenerate one-row window with
scroll 0: the whole sequence is rendered. -/
theorem C9_window_witness : viewWindow m9w = m9w.visible :=
  (C9_window m9w (by decide)).2.1 ⟨by decide, rfl⟩

/-! ## Claim C8 -/

/-- A directory of three allowed files, for reloading. -/
def t8 : FSTree :=
  .dir true (.readOk (.cons "a.md" (.file true)
    (.cons "b.md" (.file true) (.cons "c.md" (.file true) .nil))))

/-- A model about to reload `t8` at terminal height 5 (one usable row). -/
def m8 : TuiModel :=
  { root := Node.mk "r" "/r" true true "" .nil, cursor := 0, visible := [],
    status := "", width := 80, height := 5, scroll := 0 }

/-- A directory of one allowed file, for the witness reload. -/
def t8w : FSTree := .dir true (.readOk (.cons "a.md" (.file true) .nil))

/-- A model about to reload `t8w` at terminal height 10 (six usable rows). -/
def m8w : TuiModel :=
  { root := Node.mk "r" "/r" true true "" .nil, cursor := 0, visible := [],
    status := "", width := 80, height := 10, scroll := 0 }

/-- C8: the claim fails on the code: after a successful reload at terminal
height 5 (one usable row) with three entries, the cursor is 0 but the
bottom-margin rule pushes the scroll to 2, so the first entry is outside
the render window. -/
theorem C8_counterexample :
    (reloadKey (lineW []) t8 "/r" m8).cursor = 0 ∧
    (reloadKey (lineW []) t8 "/r" m8).scroll = 2 ∧
    indexVisibleB (reloadKey (lineW []) t8 "/r" m8) 0 = false :=
  ⟨by decide, by decide, by decide⟩

/-- C8 (amended): cursor movement goes down or up by exactly one inside
`[0, len-1]` and is a no-op past either boundary; a recompute clamps the
cursor to the last valid index (0 when the sequence is empty); after a
successful reload the cursor is exactly 0, and the scroll is adjusted so
that index 0 is inside the render window whenever at least three rows are
usable — with one or two usable rows the bottom-margin rule can scroll
index 0 out of view. -/
theorem C8_cursor_scroll (w : World) (t : FSTree) (rootPath : String) (m : TuiModel)
    (hs : 0 ≤ m.scroll) :
    (m.cursor < (m.visible.length : Int) - 1 → (moveDown m).cursor = m.cursor + 1) ∧
    (¬(m.cursor < (m.visible.length : Int) - 1) → moveDown m = m) ∧
    (0 < m.cursor → (moveUp m).cursor = m.cursor - 1) ∧
    (¬(0 < m.cursor) → moveUp m = m) ∧
    (0 ≤ m.cursor → (recompute m).cursor =
      (if (flattenL m.root.children 0).length = 0 then 0
       else min m.cursor (((flattenL m.root.children 0).length : Int) - 1))) ∧
    (∀ root', buildTreeNS w rootPath t = .ok root' →
      (reloadKey w t rootPath m).cursor = 0 ∧
      (3 ≤ m.height - 4 →
        (reloadKey w t rootPath m).scroll = 0 ∧
        (0 < (reloadKey w t rootPath m).visible.length →
          indexVisibleB (reloadKey w t rootPath m) 0 = true))) := by
  refine ⟨?_, ?_, ?_, ?_, ?_, ?_⟩
  · intro h
    unfold moveDown
    rw [if_pos h, adjustScroll_cursor]
  · intro h
    unfold moveDown
    rw [if_neg h]
  · intro h
    unfold moveUp
    rw [if_pos h, adjustScroll_cursor]
  · intro h
    unfold moveUp
    rw [if_neg h]
  · intro h
    unfold recompute
    rw [adjustScroll_cursor]
    dsimp only
    by_cases hz : (flattenL m.root.children 0).length = 0
    · rw [if_pos (by omega : m.cursor ≥ ((flattenL m.root.children 0).length : Int))]
      rw [if_pos hz, if_pos hz]
    · rw [if_neg hz]
      by_cases hge : m.cursor ≥ ((flattenL m.root.children 0).length : Int)
      · rw [if_pos hge, if_neg hz]
        omega
      · rw [if_neg hge]
        omega
  · intro root' hb
    have hcur : (reloadKey w t rootPath m).cursor = 0 := by
      unfold reloadKey
      rw [hb]
      unfold recompute
      rw [adjustScroll_cursor]
      dsimp only
      split
      next hge =>
        split
        next => rfl
        next hz =>
          exfalso
          omega
      next => rfl
    have hh : (reloadKey w t rootPath m).height = m.height := by
      unfold reloadKey
      rw [hb]
      unfold recompute
      rw [adjustScroll_height]
    refine ⟨hcur, ?_⟩
    intro hu
    have hscr : (reloadKey w t rootPath m).scroll = 0 := by
      unfold reloadKey
      rw [hb]
      unfold recompute
      apply adjustScroll_scroll_zero
      · dsimp only
        split
        next hge =>
          split
          next => rfl
          next hz => omega
        next => rfl
      · exact hs
      · exact hu
    refine ⟨hscr, ?_⟩
    intro hlen
    unfold indexVisibleB
    rw [hscr]
    unfold viewEnd viewUsable
    rw [hscr, hh]
    rw [if_neg (by omega)]
    simp only [Bool.and_eq_true, decide_eq_true_eq]
    constructor
    · omega
    · omega

/-- C8 witness: the amended claim at a concrete reload with a tall
terminal: cursor 0, scroll 0, index 0 inside the render window. -/
theorem C8_cursor_scroll_witness :
    (reloadKey (lineW []) t8w "/r" m8w).cursor = 0 ∧
    (3 ≤ m8w.height - 4 →
      (reloadKey (lineW []) t8w "/r" m8w).scroll = 0 ∧
      (0 < (reloadKey (lineW []) t8w "/r" m8w).visible.length →
        indexVisibleB (reloadKey (lineW []) t8w "/r" m8w) 0 = true)) :=
  have h := (C8_cursor_scroll (lineW []) t8w "/r" m8w (by decide)).2.2.2.2.2 _ rfl
  ⟨h.1, h.2⟩

end NNav
